import Mathlib

/-!
Shallow embedding of `ged2html.py` (develancer/ged2html).

The program builds a directed graph from a GEDCOM file: `Individual`
vertices (GEDCOM id starting with `I`) and `Family` vertices (id starting
with `F`).  Edges go from a parent Individual to a Family (added by `FAMS`
lines) and from a Family to a child Individual (added by `CHIL` lines).
Each edge carries a boolean property `main`; each Family vertex carries an
optional `spouse` reference.

This file embeds, directly from the source:
  * `TheGraph.fix_main_branch`      (the Main-Line Resolver),
  * the `Counter` DFS visitor and the `__main__` indexing/sorting loops
    (the Branch Indexer),
  * the `Gatherer`/`Selector` subgraph selection in `__main__`
    (the Ancestor Subgraph Selector),
  * the `Printer` DFS visitor (the Tree Renderer) including
    `_format_name` and `finish_vertex`.
-/

namespace Ged2Html

/-- One directed edge of the graph, with the `main` edge property
(`self.ep.main` in the source). -/
structure GEdge where
  src : Nat
  tgt : Nat
  main : Bool
deriving Repr, DecidableEq

/-- The graph as `fix_main_branch` and the `__main__` loops see it:
`n` vertices (numbered `0..n-1` in creation order, the order in which
`self.vertices()` iterates them), an edge list in insertion order
(`in_edges` / `out_edges` iterate in this order), and the vertex
properties used by the program. -/
structure TheGraph where
  n : Nat
  gedid : Nat → String
  edges : List GEdge
  spouse : Nat → Option Nat
  givn : Nat → String
  surn : Nat → String
  birt : Nat → String
  birp : Nat → String
  deat : Nat → Option String
  deap : Nat → String
  date : Nat → String
  plac : Nat → String

/-- The test `self.vp.gedid[v][0] == 'F'`. -/
def isFam (g : TheGraph) (v : Nat) : Bool :=
  (g.gedid v).toList.head? == some 'F'

/-- The test `self.vp.gedid[v][0] == 'I'`. -/
def isInd (g : TheGraph) (v : Nat) : Bool :=
  (g.gedid v).toList.head? == some 'I'

/-- The (src, tgt) skeleton of an edge list; `fix_main_branch` never
changes it (it only flips `main` flags). -/
def stripMain (l : List GEdge) : List (Nat × Nat) :=
  l.map (fun e => (e.src, e.tgt))

/-- Python `v.in_degree()`: the number of edges whose target is `v`. -/
def inDeg (g : TheGraph) (v : Nat) : Nat :=
  ((stripMain g.edges).filter (fun p => p.2 == v)).length

/-- Python `v.in_edges()` together with the position of each edge in the global
edge list (edge identity, needed to model mutation of `ep.main`). -/
def inEdgesIdxAux (v : Nat) : Nat → List GEdge → List (Nat × GEdge)
  | _, [] => []
  | i, e :: es =>
    if e.tgt = v then (i, e) :: inEdgesIdxAux v (i + 1) es
    else inEdgesIdxAux v (i + 1) es

def inEdgesIdx (g : TheGraph) (v : Nat) : List (Nat × GEdge) :=
  inEdgesIdxAux v 0 g.edges

/-- Number of incoming edges of `v` whose `main` flag is set. -/
def mainCnt (g : TheGraph) (v : Nat) : Nat :=
  ((inEdgesIdx g v).filter (fun p => p.2.main)).length

/-- Number of incoming edges of `v` whose `main` flag is clear. -/
def nonMainCnt (g : TheGraph) (v : Nat) : Nat :=
  ((inEdgesIdx g v).filter (fun p => !p.2.main)).length

/-- The assignment `self.ep.main[e] = b` for the edge at position `i` of the edge list. -/
def setMain : List GEdge → Nat → Bool → List GEdge
  | [], _, _ => []
  | e :: es, 0, b => { e with main := b } :: es
  | e :: es, i + 1, b => e :: setMain es i b

/-- The decision `fix_main_branch` reaches for one family, recorded
before it is applied.  `im`/`ifa` are the positions (edge identities) of
`to_mother`/`to_father` in the edge list; `f` is `father`. -/
inductive FamAct where
  | keep : FamAct
  | promoteMother (im : Nat) : FamAct
  | swapToMother (im ifa f : Nat) : FamAct
deriving Repr, DecidableEq

/-- The `for to_parent in v.in_edges()` loop of `fix_main_branch`:
splits the incoming edges of the family into `to_father` (the `main`
one) and `to_mother` (the non-`main` one), raising on a duplicate of
either role.  Accumulators hold `(edge position, source vertex)`. -/
def scanParents (fid : String) :
    List (Nat × GEdge) → Option (Nat × Nat) → Option (Nat × Nat) →
    Except String (Option (Nat × Nat) × Option (Nat × Nat))
  | [], tf, tm => .ok (tf, tm)
  | (i, e) :: rest, tf, tm =>
    if e.main then
      match tf with
      | some _ => .error ("multiple fathers in family " ++ fid)
      | none => scanParents fid rest (some (i, e.src)) tm
    else
      match tm with
      | some _ => .error ("multiple mothers in family " ++ fid)
      | none => scanParents fid rest tf (some (i, e.src))

/-- The decision part of the body of `fix_main_branch` for one family
vertex `v`: the parent scan followed by the `if mother is not None`
branches (lines 359–379 of `ged2html.py`). -/
def famDecision (g : TheGraph) (v : Nat) : Except String FamAct :=
  match scanParents (g.gedid v) (inEdgesIdx g v) none none with
  | .error msg => .error msg
  | .ok (tf, tm) =>
    match tm with
    | none => .ok .keep
    | some (im, m) =>
      match tf with
      | none => .ok (.promoteMother im)
      | some (ifa, f) =>
        if inDeg g m ≠ 0 ∧ inDeg g f = 0 then .ok (.swapToMother im ifa f)
        else .ok .keep

/-- The state mutation performed for one family: `promoteMother` is
`self.ep.main[to_mother] = True; self.vp.spouse[v] = None`;
`swapToMother` is `self.ep.main[to_mother] = True;
self.ep.main[to_father] = False; self.vp.spouse[v] = father`. -/
def applyAct (g : TheGraph) (v : Nat) : FamAct → TheGraph
  | .keep => g
  | .promoteMother im =>
    { g with edges := setMain g.edges im true,
             spouse := fun w => if w = v then none else g.spouse w }
  | .swapToMother im ifa f =>
    { g with edges := setMain (setMain g.edges im true) ifa false,
             spouse := fun w => if w = v then some f else g.spouse w }

/-- The body of the outer loop of `fix_main_branch` for one family vertex. -/
def processFamily (g : TheGraph) (v : Nat) : Except String TheGraph :=
  (famDecision g v).map (applyAct g v)

/-- One iteration of `for v in self.vertices()` in `fix_main_branch`. -/
def fixStep (g : TheGraph) (v : Nat) : Except String TheGraph :=
  if isFam g v then processFamily g v else .ok g

/-- The method `TheGraph.fix_main_branch` (ged2html.py lines 356–379). -/
def fixMainBranch (g : TheGraph) : Except String TheGraph :=
  (List.range g.n).foldlM fixStep g

/-- All edge endpoints point at actual vertices. -/
def WF (g : TheGraph) : Prop :=
  ∀ e ∈ g.edges, e.src < g.n ∧ e.tgt < g.n

instance (g : TheGraph) : Decidable (WF g) := by
  unfold WF; infer_instance

/-! ### Basic lemmas about the edge-list primitives -/

/-- Change the `main` flag of the entry with edge position `i` inside an
`inEdgesIdx`-style list. -/
def updAt (ps : List (Nat × GEdge)) (i : Nat) (b : Bool) : List (Nat × GEdge) :=
  ps.map (fun p => if p.1 = i then (p.1, { p.2 with main := b }) else p)

/-! ### The parent scan: success criterion and result value -/

/-- One if the accumulator already holds a parent, else zero. -/
def optBit : Option (Nat × Nat) → Nat
  | none => 0
  | some _ => 1

/-! ### Concrete graphs for counterexamples and witnesses -/

/-- Concrete graph builder: vertex ids, given names, edges and spouse map;
all other record fields empty, as for people with no recorded events. -/
def mkGraph (n : Nat) (ids gv : List String) (es : List GEdge)
    (sp : Nat → Option Nat) : TheGraph :=
  { n := n
    gedid := fun v => ids.getD v ""
    edges := es
    spouse := sp
    givn := fun v => gv.getD v ""
    surn := fun _ => ""
    birt := fun _ => ""
    birp := fun _ => ""
    deat := fun _ => none
    deap := fun _ => ""
    date := fun _ => ""
    plac := fun _ => "" }

/-- One individual `I1` who is the sole main parent of family `F1`. -/
def c1g : TheGraph :=
  mkGraph 2 ["I1", "F1"] [] [⟨0, 1, true⟩] (fun _ => none)

/-- Father `I1` (no ancestry) and mother `I2` (child of family `F2`) are
the two parents of `F1`; the loader marked the father edge main and
recorded the mother as the spouse. -/
def gc2 : TheGraph :=
  mkGraph 4 ["I1", "I2", "F1", "F2"] []
    [⟨0, 2, true⟩, ⟨1, 2, false⟩, ⟨3, 1, true⟩]
    (fun v => if v = 2 then some 1 else none)

/-- The graph `fix_main_branch` produces from `gc2`: the main flag has
moved to the mother edge and the father is now the recorded spouse. -/
def gc2A : TheGraph :=
  { gc2 with
      edges := [⟨0, 2, false⟩, ⟨1, 2, true⟩, ⟨3, 1, true⟩],
      spouse := fun w => if w = 2 then some 0 else gc2.spouse w }

/-! ### Depth-first search (`graph_tool.search.dfs_search`)

`dfs_search(g, source, visitor)` explores exactly the vertices reachable
from the source, firing `discover_vertex` when a vertex is first reached
and `finish_vertex` after all its out-edges have been exhausted,
exploring out-edges in insertion order.  The fuel argument only bounds
the recursion depth; with fuel above the vertex count it never runs out. -/

/-- A `dfs_search` visitor event. -/
inductive Ev where
  | disc (v : Nat) : Ev
  | fin (v : Nat) : Ev
deriving Repr, DecidableEq

/-- Out-neighbours of `v` (all edges), in edge-insertion order. -/
def allAdj (g : TheGraph) (v : Nat) : List Nat :=
  (g.edges.filter (fun e => e.src == v)).map GEdge.tgt

/-- Out-neighbours of `v` along main edges only: the `gmain =
GraphView(g, efilt=g.ep.main)` view used for branch traversals. -/
def mainAdj (g : TheGraph) (v : Nat) : List Nat :=
  (g.edges.filter (fun e => e.src == v && e.main)).map GEdge.tgt

/-- In-neighbours of `v`: adjacency of `GraphView(g, reversed=True)`,
also `v.in_neighbors()`. -/
def revAdj (g : TheGraph) (v : Nat) : List Nat :=
  (g.edges.filter (fun e => e.tgt == v)).map GEdge.src

/-- Explore a list of candidate neighbours in order with the given
one-vertex visit function, skipping neighbours already visited. -/
def dfsChildren (visit : Nat → List Nat → List Ev × List Nat) :
    List Nat → List Nat → List Ev × List Nat
  | [], vis => ([], vis)
  | w :: ws, vis =>
    if w ∈ vis then dfsChildren visit ws vis
    else ((visit w vis).1 ++ (dfsChildren visit ws (visit w vis).2).1,
          (dfsChildren visit ws (visit w vis).2).2)

/-- Visit the unvisited vertex `v`: discover it, explore its
out-neighbours in order, finish it. -/
def dfsVisit (adj : Nat → List Nat) : Nat → Nat → List Nat → List Ev × List Nat
  | 0, _, vis => ([], vis)
  | fuel + 1, v, vis =>
    (Ev.disc v ::
       ((dfsChildren (dfsVisit adj fuel) (adj v) (v :: vis)).1 ++ [Ev.fin v]),
     (dfsChildren (dfsVisit adj fuel) (adj v) (v :: vis)).2)

/-- One step along the adjacency relation. -/
def Step (adj : Nat → List Nat) (u w : Nat) : Prop := w ∈ adj u

/-- Reachability along the adjacency relation. -/
def Reach (adj : Nat → List Nat) (u w : Nat) : Prop :=
  Relation.ReflTransGen (Step adj) u w

/-- All invariants of one `dfsVisit` call: the visited list grows, stays
duplicate-free and in range, new vertices are reachable from the start,
with enough fuel the result is adjacency-closed, and the `disc` events
are exactly the newly visited vertices. -/
def VisitStmt (adj : Nat → List Nat) (n fuel : Nat) : Prop :=
  ∀ v vis, v ∉ vis → vis.Nodup → (∀ x ∈ vis, x < n) → v < n →
    vis ⊆ (dfsVisit adj fuel v vis).2 ∧
    (dfsVisit adj fuel v vis).2.Nodup ∧
    (∀ x ∈ (dfsVisit adj fuel v vis).2, x < n) ∧
    (∀ x ∈ (dfsVisit adj fuel v vis).2, x ∈ vis ∨ Reach adj v x) ∧
    (n + 1 ≤ fuel + vis.length →
      v ∈ (dfsVisit adj fuel v vis).2 ∧
      ∀ x ∈ (dfsVisit adj fuel v vis).2, x ∉ vis →
        ∀ w ∈ adj x, w ∈ (dfsVisit adj fuel v vis).2) ∧
    (∀ x, Ev.disc x ∈ (dfsVisit adj fuel v vis).1 ↔
      (x ∈ (dfsVisit adj fuel v vis).2 ∧ x ∉ vis))

/-- The same invariants for a `dfsList` call over a neighbour list. -/
def ListStmt (adj : Nat → List Nat) (n fuel : Nat) : Prop :=
  ∀ ws vis, (∀ w ∈ ws, w < n) → vis.Nodup → (∀ x ∈ vis, x < n) →
    vis ⊆ (dfsChildren (dfsVisit adj fuel) ws vis).2 ∧
    (dfsChildren (dfsVisit adj fuel) ws vis).2.Nodup ∧
    (∀ x ∈ (dfsChildren (dfsVisit adj fuel) ws vis).2, x < n) ∧
    (∀ x ∈ (dfsChildren (dfsVisit adj fuel) ws vis).2, x ∈ vis ∨ ∃ u ∈ ws, Reach adj u x) ∧
    (n + 1 ≤ fuel + vis.length →
      (∀ w ∈ ws, w ∈ (dfsChildren (dfsVisit adj fuel) ws vis).2) ∧
      ∀ x ∈ (dfsChildren (dfsVisit adj fuel) ws vis).2, x ∉ vis →
        ∀ w ∈ adj x, w ∈ (dfsChildren (dfsVisit adj fuel) ws vis).2) ∧
    (∀ x, Ev.disc x ∈ (dfsChildren (dfsVisit adj fuel) ws vis).1 ↔
      (x ∈ (dfsChildren (dfsVisit adj fuel) ws vis).2 ∧ x ∉ vis))

/-! ### The Branch Indexer: `Counter` and the `__main__` indexing loop -/

/-- What `Counter.discover_vertex` records for one discovered vertex:
an Individual records itself; a Family with a recorded spouse records
that spouse; anything else records nothing. -/
def recordOf (g : TheGraph) (v : Nat) : List Nat :=
  (if isInd g v then [v] else []) ++
  (if isFam g v then
    (match g.spouse v with
     | some m => [m]
     | none => []) else [])

/-- All vertices recorded during `dfs_search(gmain, r, counter)`, in
discovery order (one `discover_vertex` call per discovered vertex). -/
def recordsOfDfs (g : TheGraph) (r : Nat) : List Nat :=
  ((dfsVisit (mainAdj g) (g.n + 1) r []).1).flatMap (fun ev =>
    match ev with
    | .disc v => recordOf g v
    | .fin _ => [])

/-- The value of `counter.count` after the search rooted at `r`. -/
def branchCount (g : TheGraph) (r : Nat) : Nat :=
  (recordsOfDfs g r).length

/-- The candidate branch roots: `for v in g.vertices(): if v.in_degree() == 0`. -/
def roots0 (g : TheGraph) : List Nat :=
  (List.range g.n).filter (fun v => inDeg g v == 0)

/-- The list `counter.roots_per_vertex[x]`: every root whose search recorded `x`,
in root-processing order, with multiplicity. -/
def rootsPerVertex (g : TheGraph) (x : Nat) : List Nat :=
  (roots0 g).flatMap (fun r =>
    ((recordsOfDfs g r).filter (fun y => y == x)).map (fun _ => r))

/-- The `counts` dictionary in insertion order: kept roots paired with
their member counts (`if counter.count > 1: counts[v] = counter.count`). -/
def keptPairs (g : TheGraph) : List (Nat × Nat) :=
  (roots0 g).filterMap (fun r =>
    if 1 < branchCount g r then some (r, branchCount g r) else none)

/-- A root individual `I1` whose family `F1` has spouse `I2`; `I2` is
recorded for root `I1` although no main-edge path reaches it. -/
def gC3 : TheGraph :=
  mkGraph 3 ["I1", "F1", "I2"] []
    [⟨0, 1, true⟩, ⟨2, 1, false⟩]
    (fun v => if v = 1 then some 2 else none)

/-! ### Sorting branches by size (`sorted(counts, key=counts.get, reverse=True)`)

Python sorting is stable; `reverse=True` gives a non-increasing order in
which entries with equal counts keep their original (insertion) order.
`insDesc` inserts an element after every already-placed element of
greater-or-equal count, which is exactly that order. -/
def insDesc (x : Nat × Nat) : List (Nat × Nat) → List (Nat × Nat)
  | [] => [x]
  | y :: l => if x.2 ≤ y.2 then y :: insDesc x l else x :: y :: l

def sortDesc (l : List (Nat × Nat)) : List (Nat × Nat) :=
  l.foldl (fun acc x => insDesc x acc) []

/-- The loop `roots.append(v); num_from_root[v] = str(len(roots))` for a sorted
list of kept pairs, starting at label `k + 1`. -/
def labelsFrom (k : Nat) : List (Nat × Nat) → List (Nat × String)
  | [] => []
  | p :: l => (p.1, toString (k + 1)) :: labelsFrom (k + 1) l

/-- The `roots` list of `__main__`, in final label order. -/
def rootsList (g : TheGraph) : List Nat :=
  (sortDesc (keptPairs g)).map Prod.fst

/-- The `num_from_root` dictionary: kept root to branch label. -/
def numAssoc (g : TheGraph) : List (Nat × String) :=
  labelsFrom 0 (sortDesc (keptPairs g))

def numLabel (g : TheGraph) (r : Nat) : Option String :=
  (numAssoc g).lookup r

/-- Two branches: root `I1` with two children (count 3) and root `I4`
with one child (count 2). -/
def gC4 : TheGraph :=
  mkGraph 7 ["I1", "F1", "I2", "I3", "I4", "F3", "I5"] []
    [⟨0, 1, true⟩, ⟨1, 2, true⟩, ⟨1, 3, true⟩, ⟨4, 5, true⟩, ⟨5, 6, true⟩]
    (fun _ => none)

/-! ### The Ancestor Subgraph Selector (`__main__` optional mode) -/

/-- The `Gatherer` run on `GraphView(g, reversed=True)` from `start`:
the ancestor closure of `start`, including `start` itself (the DFS
discovers its source). -/
def ancestors (g : TheGraph) (start : Nat) : List Nat :=
  (dfsVisit (revAdj g) (g.n + 1) start []).2

/-- The graph with the transient `root = g.add_vertex()` (index `g.n`)
and one edge from it to every gathered ancestor; `add_edge` leaves the
is-main flag at its default `False`. -/
def withRoot (g : TheGraph) (start : Nat) : TheGraph :=
  { g with n := g.n + 1,
           edges := g.edges ++ (ancestors g start).map (fun a => ⟨g.n, a, false⟩) }

/-- The vertices whose `selected` flag the `Selector` DFS sets, with the
transient root removed again (`g.remove_vertex(root)`; the root is the
last vertex, so the other indices are unchanged). -/
def selected0 (g : TheGraph) (start : Nat) : List Nat :=
  ((dfsVisit (allAdj (withRoot g start)) ((withRoot g start).n + 1) g.n []).2).filter
    (fun v => v != g.n)

/-- The spouse-inclusion loop: `for v in g.vertices(): if
g.vp.selected[v] and g.vp.gedid[v][0] == 'F': for w in
v.in_neighbors(): g.vp.selected[w] = True`, reading the mutated flags in
iteration order just as the source does. -/
def includeSpouses (g : TheGraph) (sel : List Nat) : List Nat :=
  (List.range g.n).foldl (fun acc v =>
    if v ∈ acc ∧ isFam g v = true then acc ++ revAdj g v else acc) sel

/-- The final vertex-inclusion set of the selector. -/
def selectedSet (g : TheGraph) (start : Nat) : List Nat :=
  includeSpouses g (selected0 g start)

/-- Decidable forward reachability, via the DFS itself. -/
def reachB (g : TheGraph) (u w : Nat) : Bool :=
  decide (w ∈ (dfsVisit (allAdj g) (g.n + 1) u []).2)

/-- Whether `w` is an in-neighbour of some selected Family (a spouse pulled in by
the inclusion loop). -/
def spouseOfSelB (g : TheGraph) (start w : Nat) : Bool :=
  (List.range g.n).any (fun v =>
    isFam g v && decide (v ∈ selected0 g start) && decide (w ∈ revAdj g v))

/-- Here `I1` (vertex 2) is the child of family `F1` (vertex 1) whose only
parent is `I2` (vertex 0). -/
def gC7 : TheGraph :=
  mkGraph 3 ["I2", "F1", "I1"] []
    [⟨0, 1, true⟩, ⟨1, 2, true⟩]
    (fun _ => none)

/-! ### The Tree Renderer (`Printer`) -/

/-- Python string sorting compares code points left to right. -/
def lexLe : List Char → List Char → Bool
  | [], _ => true
  | _ :: _, [] => false
  | a :: as, b :: bs =>
    if a.toNat < b.toNat then true
    else if b.toNat < a.toNat then false
    else lexLe as bs

def strLe (a b : String) : Bool := lexLe a.toList b.toList

def insStr (x : String) : List String → List String
  | [] => [x]
  | y :: l => if strLe x y then x :: y :: l else y :: insStr x l

/-- Python `sorted` on a list of strings. -/
def sortStrings (l : List String) : List String := l.foldr insStr []

/-- The method `TheGraph.format_name` (ged2html.py lines 251–274). -/
def formatName (g : TheGraph) (v : Nat) : String :=
  let name0 := if g.givn v = "" then "NN." else g.givn v
  let name1 := if g.surn v ≠ "" then name0 ++ " " ++ g.surn v else name0
  let small0 :=
    if g.birt v ≠ "" ∨ g.birp v ≠ "" then
      (" *" ++ g.birt v) ++ (if g.birp v ≠ "" then " (" ++ g.birp v ++ ")" else "")
    else ""
  let small1 := small0 ++
    (match g.deat v with
     | none => ""
     | some d => (" †" ++ d) ++ (if g.deap v ≠ "" then " (" ++ g.deap v ++ ")" else ""))
  if small1 ≠ "" then name1 ++ "<span class=dates>" ++ small1 ++ "</span>" else name1

/-- The labels collected by `Printer._format_name` for vertex `v` when
rendering the branch rooted at `root`: the labels of the other kept
branches `v` belongs to, `sorted`. -/
def diagramsOf (rpv : Nat → List Nat) (num : Nat → Option String)
    (root v : Nat) : List String :=
  sortStrings ((rpv v).filterMap (fun r => if r = root then none else num r))

/-- The method `Printer._format_name` (lines 91–108). -/
def formatNameP (g : TheGraph) (rpv : Nat → List Nat)
    (num : Nat → Option String) (root v : Nat) : String :=
  if diagramsOf rpv num root v ≠ [] then
    formatName g v ++ " → <span class=diagrams>"
      ++ String.intercalate ", " (diagramsOf rpv num root v) ++ "</span>"
  else formatName g v

/-- The `Printer` state: current depth and emitted lines (as character
lists, since `finish_vertex` indexes and splices lines by character). -/
structure PState where
  level : Nat
  lines : List (List Char)
deriving Repr, DecidableEq

/-- String repetition `s * k` for the indentation pieces. -/
def rep (k : Nat) (s : List Char) : List Char :=
  (List.replicate k s).flatten

/-- The method `Printer.discover_vertex` (lines 110–128). -/
def discoverVertexP (g : TheGraph) (rpv : Nat → List Nat)
    (num : Nat → Option String) (root : Nat) (st : PState) (v : Nat) : PState :=
  let st1 :=
    if isInd g v then
      { level := st.level + 1,
        lines := st.lines ++
          [(if st.level ≠ 0 then
              rep (st.level - 1) "│ ".toList ++ "├ ".toList
            else []) ++ (formatNameP g rpv num root v).toList] }
    else st
  if isFam g v then
    match g.spouse v with
    | none => st1
    | some m =>
      let small := "⚭" ++ g.date v ++
        (if g.plac v ≠ "" then " (" ++ g.plac v ++ ")" else "")
      { st1 with lines := st1.lines ++
          [rep (st1.level - 1) "│ ".toList ++ "┆".toList
            ++ "<span class=dates>".toList ++ small.toList ++ "</span> ".toList
            ++ (formatNameP g rpv num root m).toList] }
  else st1

/-- The splice `last[:pos] + repl + last[pos+1:]`. -/
def setCharAt (l : List Char) (i : Nat) (cs : List Char) : List Char :=
  l.take i ++ cs ++ l.drop (i + 1)

def invisSpan : List Char := "<span class=invis>│</span>".toList

/-- The replacement after the backward walk stops (lines 148–152):
`├` becomes `└`, `│` or `┆` becomes `╵`.  Reading past the end of the
line is an `IndexError`, modelled as `none`. -/
def cornerFinish (pos index : Nat) (lines : List (List Char)) :
    Option (List (List Char)) :=
  (lines[index]?).bind fun last =>
    (last[pos]?).bind fun c =>
      if c = '├' then some (lines.set index (setCharAt last pos ['└']))
      else if c = '│' ∨ c = '┆' then
        some (lines.set index (setCharAt last pos ['╵']))
      else some lines

/-- The backward `while` walk of `Printer.finish_vertex` (lines
142–147): replace a dangling `│` with the invisible placeholder while
the line above continues the connector, then fix the stopping line. -/
def cornerWalk (pos : Nat) : Nat → List (List Char) → Option (List (List Char))
  | 0, lines => cornerFinish pos 0 lines
  | index + 1, lines =>
    (lines[index + 1]?).bind fun last =>
      (last[pos]?).bind fun c =>
        if c = '│' then
          (lines[index]?).bind fun prev =>
            (prev[pos]?).bind fun p =>
              if p = '├' ∨ p = '│' ∨ p = '┆' then
                cornerWalk pos index
                  (lines.set (index + 1) (setCharAt last pos invisSpan))
              else cornerFinish pos (index + 1) lines
        else cornerFinish pos (index + 1) lines

/-- The method `Printer.finish_vertex` (lines 130–152). -/
def finishVertexP (g : TheGraph) (v : Nat) (st : PState) : Option PState :=
  if isInd g v then
    if st.lines = [] then some ⟨st.level - 1, st.lines⟩
    else
      match cornerWalk ((st.level - 1) * 2) (st.lines.length - 1) st.lines with
      | none => none
      | some ls => some ⟨st.level - 1, ls⟩
  else some st

/-- One visitor event of the `Printer`. -/
def stepPrinter (g : TheGraph) (rpv : Nat → List Nat)
    (num : Nat → Option String) (root : Nat) (st : PState) (ev : Ev) :
    Option PState :=
  match ev with
  | .disc v => some (discoverVertexP g rpv num root st v)
  | .fin v => finishVertexP g v st

/-- The run `dfs_search(gmain, root, printer)`: fold the printer over the DFS
events of the branch. -/
def runPrinter (g : TheGraph) (rpv : Nat → List Nat)
    (num : Nat → Option String) (root : Nat) : Option PState :=
  ((dfsVisit (mainAdj g) (g.n + 1) root []).1).foldlM
    (stepPrinter g rpv num root) ⟨0, []⟩

/-- The lines of one rendered branch, fed with the real membership map
and branch labels. -/
def printerLines (g : TheGraph) (r : Nat) : Option (List (List Char)) :=
  (runPrinter g (rootsPerVertex g) (numLabel g) r).map PState.lines

/-- The output of the HTML loop as the spec describes it: one (branch
label, root surname, rendered lines) tuple per kept root, in label
order (`f.write(... % (num_from_root[v], g.vp.surn[v]))`). -/
def diagramEntries (g : TheGraph) :
    List (String × String × Option (List (List Char))) :=
  (rootsList g).map (fun r => ((numLabel g r).getD "", g.surn r, printerLines g r))

/-- Root `I1` (given name `R`) with family `F1` and child `I2` (given
name `C`); the rendered branch is `R` over `└ C`. -/
def gC5 : TheGraph :=
  mkGraph 3 ["I1", "F1", "I2"] ["R", "", "C"]
    [⟨0, 1, true⟩, ⟨1, 2, true⟩]
    (fun _ => none)

/-- The claimed alternative: the column shows a terminal glyph, a corner
glyph, or the invisible placeholder. -/
def showsClosed (l : List Char) (pos : Nat) : Prop :=
  l[pos]? = some '└' ∨ l[pos]? = some '╵' ∨
  (invisSpan.isPrefixOf (l.drop pos)) = true

instance (l : List Char) (pos : Nat) : Decidable (showsClosed l pos) := by
  unfold showsClosed
  infer_instance

def stC5 : PState := ⟨2, ["R".toList, "├ C".toList]⟩

/-- Membership map and labels for an individual belonging to kept
branches "2" and "5", rendered inside a third branch labelled "1". -/
def rpv25 : Nat → List Nat := fun v => if v = 0 then [3, 1, 2] else []

def num25 : Nat → Option String := fun r =>
  if r = 1 then some "5" else if r = 2 then some "2" else
  if r = 3 then some "1" else none

/-- Membership map and labels for an individual in kept branches "10"
and "2". -/
def rpvC8 : Nat → List Nat := fun v => if v = 0 then [1, 2] else []

def numC8 : Nat → Option String := fun r =>
  if r = 1 then some "10" else if r = 2 then some "2" else none

/-- The number a branch label denotes. -/
def labelVal (s : String) : Nat :=
  s.toList.foldl (fun acc c => acc * 10 + (c.toNat - 48)) 0

/-- A parentless family `F1` with two recorded children. -/
def gC10 : TheGraph :=
  mkGraph 3 ["F1", "I1", "I2"] ["", "A", "B"]
    [⟨0, 1, true⟩, ⟨0, 2, true⟩]
    (fun _ => none)

/-! ### Theorems -/

theorem setMain_nil (i : Nat) (b : Bool) : setMain [] i b = [] := rfl

theorem stripMain_setMain (l : List GEdge) (i : Nat) (b : Bool) :
    stripMain (setMain l i b) = stripMain l := by
  induction l generalizing i with
  | nil => rfl
  | cons e es ih =>
    cases i with
    | zero => simp [setMain, stripMain]
    | succ k => simpa [setMain, stripMain] using ih k

theorem inDeg_eq_of_strip {g h : TheGraph} (hs : stripMain h.edges = stripMain g.edges)
    (u : Nat) : inDeg h u = inDeg g u := by
  unfold inDeg; rw [hs]

theorem inEdgesIdxAux_mem {v : Nat} :
    ∀ (l : List GEdge) (j : Nat) (p : Nat × GEdge), p ∈ inEdgesIdxAux v j l →
      j ≤ p.1 ∧ l[p.1 - j]? = some p.2 ∧ p.2.tgt = v := by
  intro l
  induction l with
  | nil => intro j p hp; simp [inEdgesIdxAux] at hp
  | cons e es ih =>
    intro j p hp
    by_cases he : e.tgt = v
    · simp only [inEdgesIdxAux, if_pos he] at hp
      rcases List.mem_cons.mp hp with hp | hp
      · subst hp; simp [he]
      · rcases ih (j + 1) p hp with ⟨h1, h2, h3⟩
        refine ⟨by omega, ?_, h3⟩
        have : p.1 - j = (p.1 - (j + 1)) + 1 := by omega
        rw [this]; simpa using h2
    · simp only [inEdgesIdxAux, if_neg he] at hp
      rcases ih (j + 1) p hp with ⟨h1, h2, h3⟩
      refine ⟨by omega, ?_, h3⟩
      have : p.1 - j = (p.1 - (j + 1)) + 1 := by omega
      rw [this]; simpa using h2

theorem inEdgesIdx_mem {g : TheGraph} {v : Nat} {p : Nat × GEdge}
    (hp : p ∈ inEdgesIdx g v) : g.edges[p.1]? = some p.2 ∧ p.2.tgt = v := by
  have := inEdgesIdxAux_mem g.edges 0 p hp
  simpa using this

theorem inEdgesIdxAux_lb {v : Nat} :
    ∀ (l : List GEdge) (j : Nat) (p : Nat × GEdge), p ∈ inEdgesIdxAux v j l → j ≤ p.1 :=
  fun l j p hp => (inEdgesIdxAux_mem l j p hp).1

theorem inEdgesIdxAux_sorted {v : Nat} :
    ∀ (l : List GEdge) (j : Nat),
      (inEdgesIdxAux v j l).Pairwise (fun p q => p.1 < q.1) := by
  intro l
  induction l with
  | nil => intro j; simp [inEdgesIdxAux]
  | cons e es ih =>
    intro j
    by_cases he : e.tgt = v
    · simp only [inEdgesIdxAux, if_pos he]
      refine List.Pairwise.cons ?_ (ih (j + 1))
      intro q hq
      have hlb : j + 1 ≤ q.1 := inEdgesIdxAux_lb es (j + 1) q hq
      show j < q.1
      omega
    · simpa only [inEdgesIdxAux, if_neg he] using ih (j + 1)

theorem updAt_eq_self {ps : List (Nat × GEdge)} {i : Nat} (b : Bool)
    (h : ∀ p ∈ ps, p.1 ≠ i) : updAt ps i b = ps := by
  induction ps with
  | nil => rfl
  | cons p ps ih =>
    simp only [updAt, List.map_cons]
    rw [if_neg (h p (by simp))]
    have := ih (fun q hq => h q (by simp [hq]))
    simp only [updAt] at this
    rw [this]

theorem inEdgesIdxAux_setMain {v : Nat} :
    ∀ (l : List GEdge) (j i : Nat) (b : Bool),
      inEdgesIdxAux v j (setMain l i b) = updAt (inEdgesIdxAux v j l) (j + i) b := by
  intro l
  induction l with
  | nil => intro j i b; simp [setMain, inEdgesIdxAux, updAt]
  | cons e es ih =>
    intro j i b
    cases i with
    | zero =>
      have hrest : updAt (inEdgesIdxAux v (j + 1) es) (j + 0) b
          = inEdgesIdxAux v (j + 1) es :=
        updAt_eq_self b (fun p hp => by
          have hlb : j + 1 ≤ p.1 := inEdgesIdxAux_lb es (j + 1) p hp
          omega)
      by_cases he : e.tgt = v
      · simp only [setMain, inEdgesIdxAux, he, if_pos, updAt, List.map_cons]
        rw [if_pos (by omega)]
        simp only [updAt] at hrest
        rw [hrest]
      · simp only [setMain, inEdgesIdxAux, he, if_false, if_neg]
        simp only [updAt] at hrest ⊢
        rw [hrest]
    | succ k =>
      by_cases he : e.tgt = v
      · simp only [setMain, inEdgesIdxAux, if_pos he, updAt, List.map_cons]
        rw [if_neg (by omega)]
        have hih := ih (j + 1) k b
        simp only [updAt] at hih
        rw [hih]
        have harith : j + 1 + k = j + (k + 1) := by omega
        rw [harith]
      · simp only [setMain, inEdgesIdxAux, if_neg he]
        have hih := ih (j + 1) k b
        simp only [updAt] at hih ⊢
        rw [hih]
        have harith : j + 1 + k = j + (k + 1) := by omega
        rw [harith]

theorem inEdgesIdx_setMain (v i : Nat) (b : Bool) (l : List GEdge) :
    inEdgesIdxAux v 0 (setMain l i b) = updAt (inEdgesIdxAux v 0 l) i b := by
  simpa using inEdgesIdxAux_setMain l 0 i b

theorem inDeg_eq_length_inEdgesIdx (g : TheGraph) (v : Nat) :
    inDeg g v = (inEdgesIdx g v).length := by
  unfold inDeg inEdgesIdx stripMain
  have : ∀ (l : List GEdge) (j : Nat),
      ((l.map (fun e => (e.src, e.tgt))).filter (fun p => p.2 == v)).length
        = (inEdgesIdxAux v j l).length := by
    intro l
    induction l with
    | nil => intro j; simp [inEdgesIdxAux]
    | cons e es ih =>
      intro j
      by_cases he : e.tgt = v
      · simp [List.filter_cons, inEdgesIdxAux, he, ih (j + 1)]
      · simp [List.filter_cons, inEdgesIdxAux, he, ih (j + 1)]
  exact this g.edges 0

/-! ### Generic list helpers -/
theorem filter_not_eq_self_of_filter_nil {α} (p : α → Bool) :
    ∀ l : List α, l.filter p = [] → l.filter (fun x => !p x) = l := by
  intro l
  induction l with
  | nil => intro _; rfl
  | cons x xs ih =>
    intro hl
    cases hx : p x with
    | true => simp [List.filter_cons, hx] at hl
    | false => simp_all [List.filter_cons, hx]

theorem eq_singleton_of_mem_length_le_one {α} {l : List α} {a : α}
    (ha : a ∈ l) (hl : l.length ≤ 1) : l = [a] := by
  match l, ha with
  | [x], ha =>
    have : a = x := by simpa using ha
    rw [this]
  | x :: y :: t, _ => simp at hl

theorem find?_filter_singleton {α} {p : α → Bool} {l : List α} {a : α}
    (hf : l.find? p = some a) (hlen : (l.filter p).length ≤ 1) : l.filter p = [a] := by
  have hmem : a ∈ l.filter p :=
    List.mem_filter.mpr ⟨List.mem_of_find?_eq_some hf, List.find?_some hf⟩
  exact eq_singleton_of_mem_length_le_one hmem hlen

theorem filter_pair_decomp {α} (p : α → Bool) {a b : α} :
    ∀ l : List α, l.filter p = [a] → l.filter (fun x => !p x) = [b] →
      l = [a, b] ∨ l = [b, a] := by
  intro l
  induction l with
  | nil => intro h1 _; simp at h1
  | cons x xs ih =>
    intro h1 h2
    cases hx : p x with
    | true =>
      rw [List.filter_cons, if_pos (by simp [hx])] at h1
      rw [List.filter_cons, if_neg (by simp [hx])] at h2
      obtain ⟨hxa, hrest⟩ := List.cons_eq_cons.mp h1
      subst hxa
      left
      have hxs : xs = [b] := by
        have := filter_not_eq_self_of_filter_nil p xs hrest
        rw [← this, h2]
      rw [hxs]
    | false =>
      rw [List.filter_cons, if_neg (by simp [hx])] at h1
      rw [List.filter_cons, if_pos (by simp [hx])] at h2
      obtain ⟨hxb, hrest⟩ := List.cons_eq_cons.mp h2
      subst hxb
      right
      have hxs : xs = [a] := by
        have hnn : ∀ y : α, (!!p y) = p y := by intro y; simp
        have hval := filter_not_eq_self_of_filter_nil (fun y => !p y) xs hrest
        simp only [hnn] at hval
        rw [← hval, h1]
      rw [hxs]

theorem scanParents_ok_iff (fid : String) :
    ∀ (es : List (Nat × GEdge)) (tf tm : Option (Nat × Nat)),
      (∃ r, scanParents fid es tf tm = .ok r) ↔
        ((es.filter fun p => p.2.main).length + optBit tf ≤ 1 ∧
         (es.filter fun p => !p.2.main).length + optBit tm ≤ 1) := by
  intro es
  induction es with
  | nil =>
    intro tf tm
    cases tf <;> cases tm <;> simp [scanParents, optBit]
  | cons q rest ih =>
    intro tf tm
    obtain ⟨i, e⟩ := q
    cases he : e.main with
    | true =>
      cases tf with
      | some a =>
        simp only [scanParents]
        rw [if_pos he]
        constructor
        · rintro ⟨r, hr⟩; simp at hr
        · rintro ⟨h1, _⟩
          simp [List.filter_cons, he, optBit] at h1
      | none =>
        simp only [scanParents]
        rw [if_pos he, ih (some (i, e.src)) tm]
        simp [List.filter_cons, he, optBit]
    | false =>
      cases tm with
      | some a =>
        simp only [scanParents]
        rw [if_neg (by simp [he])]
        constructor
        · rintro ⟨r, hr⟩; simp at hr
        · rintro ⟨_, h2⟩
          simp [List.filter_cons, he, optBit] at h2
      | none =>
        simp only [scanParents]
        rw [if_neg (by simp [he]), ih tf (some (i, e.src))]
        simp [List.filter_cons, he, optBit]

theorem scanParents_val (fid : String) :
    ∀ (es : List (Nat × GEdge)) (tf tm tf2 tm2 : Option (Nat × Nat)),
      scanParents fid es tf tm = .ok (tf2, tm2) →
        tf2 = (tf <|> (es.find? fun p => p.2.main).map fun p => (p.1, p.2.src)) ∧
        tm2 = (tm <|> (es.find? fun p => !p.2.main).map fun p => (p.1, p.2.src)) := by
  intro es
  induction es with
  | nil =>
    intro tf tm tf2 tm2 h
    simp only [scanParents, Except.ok.injEq, Prod.mk.injEq] at h
    obtain ⟨h1, h2⟩ := h
    subst h1; subst h2
    simp
  | cons q rest ih =>
    intro tf tm tf2 tm2 h
    obtain ⟨i, e⟩ := q
    cases he : e.main with
    | true =>
      simp only [scanParents] at h
      rw [if_pos he] at h
      cases tf with
      | some a => simp at h
      | none =>
        obtain ⟨h1, h2⟩ := ih (some (i, e.src)) tm tf2 tm2 h
        constructor
        · rw [h1]
          rw [List.find?_cons_of_pos _ (by simp [he])]
          simp
        · rw [h2]
          rw [List.find?_cons_of_neg _ (by simp [he])]
    | false =>
      simp only [scanParents] at h
      rw [if_neg (by simp [he])] at h
      cases tm with
      | some a => simp at h
      | none =>
        obtain ⟨h1, h2⟩ := ih tf (some (i, e.src)) tf2 tm2 h
        constructor
        · rw [h1]
          rw [List.find?_cons_of_neg _ (by simp [he])]
        · rw [h2]
          rw [List.find?_cons_of_pos _ (by simp [he])]
          simp

/-! ### Characterizing the per-family decision -/
theorem famDecision_ok_iff (g : TheGraph) (v : Nat) :
    (∃ a, famDecision g v = .ok a) ↔ (mainCnt g v ≤ 1 ∧ nonMainCnt g v ≤ 1) := by
  unfold famDecision mainCnt nonMainCnt
  cases hscan : scanParents (g.gedid v) (inEdgesIdx g v) none none with
  | error msg =>
    simp only
    constructor
    · rintro ⟨a, ha⟩; simp at ha
    · intro hc
      have := (scanParents_ok_iff (g.gedid v) (inEdgesIdx g v) none none).mpr
        (by simpa [optBit] using hc)
      rw [hscan] at this
      obtain ⟨r, hr⟩ := this
      simp at hr
  | ok r =>
    obtain ⟨tf, tm⟩ := r
    have hok : ∃ r2, scanParents (g.gedid v) (inEdgesIdx g v) none none = .ok r2 :=
      ⟨(tf, tm), hscan⟩
    have hc := (scanParents_ok_iff (g.gedid v) (inEdgesIdx g v) none none).mp hok
    simp only [optBit, Nat.add_zero] at hc
    constructor
    · intro _; exact hc
    · intro _
      cases tm with
      | none => exact ⟨.keep, rfl⟩
      | some p =>
        obtain ⟨im, m⟩ := p
        cases tf with
        | none => exact ⟨.promoteMother im, rfl⟩
        | some q =>
          obtain ⟨ifa, f⟩ := q
          by_cases hcond : inDeg g m ≠ 0 ∧ inDeg g f = 0
          · exact ⟨.swapToMother im ifa f, by simp only [if_pos hcond]⟩
          · exact ⟨.keep, by simp only [if_neg hcond]⟩

theorem famDecision_promote {g : TheGraph} {v im : Nat}
    (h : famDecision g v = .ok (.promoteMother im)) :
    ∃ em : GEdge, em.main = false ∧ inEdgesIdx g v = [(im, em)] := by
  unfold famDecision at h
  cases hscan : scanParents (g.gedid v) (inEdgesIdx g v) none none with
  | error msg => rw [hscan] at h; simp at h
  | ok r =>
    obtain ⟨tf, tm⟩ := r
    rw [hscan] at h
    obtain ⟨hv1, hv2⟩ := scanParents_val (g.gedid v) (inEdgesIdx g v) none none tf tm hscan
    simp only [Option.none_orElse] at hv1 hv2
    cases tm with
    | none => simp at h
    | some p =>
      obtain ⟨im0, m0⟩ := p
      cases tf with
      | some q =>
        obtain ⟨ifa, f⟩ := q
        by_cases hcond : inDeg g m0 ≠ 0 ∧ inDeg g f = 0
        · simp [if_pos hcond] at h
        · simp [if_neg hcond] at h
      | none =>
        simp only [Except.ok.injEq, FamAct.promoteMother.injEq] at h
        subst h
        -- no main in-edge at all
        have hfmain : (inEdgesIdx g v).find? (fun p => p.2.main) = none := by
          cases hf : (inEdgesIdx g v).find? (fun p => p.2.main) with
          | none => rfl
          | some a => rw [hf] at hv1; simp at hv1
        -- the non-main accumulator points at the first non-main in-edge
        cases hm : (inEdgesIdx g v).find? (fun p => !p.2.main) with
        | none => rw [hm] at hv2; simp at hv2
        | some pm =>
          obtain ⟨pmi, pme⟩ := pm
          rw [hm] at hv2
          have hpair : (im0, m0) = (pmi, pme.src) := by
            apply Option.some.inj
            simpa using hv2
          have him : im0 = pmi := congrArg Prod.fst hpair
          have hok : ∃ r2, scanParents (g.gedid v) (inEdgesIdx g v) none none = .ok r2 :=
            ⟨(none, some (im0, m0)), hscan⟩
          have hcnt := (scanParents_ok_iff (g.gedid v) (inEdgesIdx g v) none none).mp hok
          simp only [optBit, Nat.add_zero] at hcnt
          have hall : (inEdgesIdx g v).filter (fun p => p.2.main) = [] := by
            rw [List.filter_eq_nil_iff]
            exact List.find?_eq_none.mp hfmain
          have hself := filter_not_eq_self_of_filter_nil _ _ hall
          have hsing : (inEdgesIdx g v).filter (fun p => !p.2.main) = [(pmi, pme)] :=
            find?_filter_singleton hm hcnt.2
          refine ⟨pme, ?_, ?_⟩
          · have := List.find?_some hm
            simpa using this
          · rw [← hself, hsing, him]

theorem famDecision_swap {g : TheGraph} {v im ifa f : Nat}
    (h : famDecision g v = .ok (.swapToMother im ifa f)) :
    ∃ ef em : GEdge, ef.main = true ∧ em.main = false ∧ f = ef.src ∧
      inDeg g em.src ≠ 0 ∧ inDeg g ef.src = 0 ∧
      (inEdgesIdx g v = [(ifa, ef), (im, em)] ∨
       inEdgesIdx g v = [(im, em), (ifa, ef)]) := by
  unfold famDecision at h
  cases hscan : scanParents (g.gedid v) (inEdgesIdx g v) none none with
  | error msg => rw [hscan] at h; simp at h
  | ok r =>
    obtain ⟨tf, tm⟩ := r
    rw [hscan] at h
    obtain ⟨hv1, hv2⟩ := scanParents_val (g.gedid v) (inEdgesIdx g v) none none tf tm hscan
    simp only [Option.none_orElse] at hv1 hv2
    cases tm with
    | none => simp at h
    | some p =>
      obtain ⟨im0, m0⟩ := p
      cases tf with
      | none => simp at h
      | some q =>
        obtain ⟨ifa0, f0⟩ := q
        by_cases hcond : inDeg g m0 ≠ 0 ∧ inDeg g f0 = 0
        · simp only [if_pos hcond, Except.ok.injEq, FamAct.swapToMother.injEq] at h
          obtain ⟨him, hifa, hf⟩ := h
          subst him; subst hifa; subst hf
          cases hfm : (inEdgesIdx g v).find? (fun p => p.2.main) with
          | none => rw [hfm] at hv1; simp at hv1
          | some pf =>
            obtain ⟨pfi, pfe⟩ := pf
            rw [hfm] at hv1
            have hpairf : (ifa0, f0) = (pfi, pfe.src) := by
              apply Option.some.inj
              simpa using hv1
            cases hmm : (inEdgesIdx g v).find? (fun p => !p.2.main) with
            | none => rw [hmm] at hv2; simp at hv2
            | some pm =>
              obtain ⟨pmi, pme⟩ := pm
              rw [hmm] at hv2
              have hpairm : (im0, m0) = (pmi, pme.src) := by
                apply Option.some.inj
                simpa using hv2
              have hok : ∃ r2, scanParents (g.gedid v) (inEdgesIdx g v) none none
                  = .ok r2 := ⟨(some (ifa0, f0), some (im0, m0)), hscan⟩
              have hcnt := (scanParents_ok_iff (g.gedid v) (inEdgesIdx g v)
                none none).mp hok
              simp only [optBit, Nat.add_zero] at hcnt
              have hsingf : (inEdgesIdx g v).filter (fun p => p.2.main) = [(pfi, pfe)] :=
                find?_filter_singleton hfm hcnt.1
              have hsingm : (inEdgesIdx g v).filter (fun p => !p.2.main) = [(pmi, pme)] :=
                find?_filter_singleton hmm hcnt.2
              have hdec := filter_pair_decomp (fun p => p.2.main)
                (inEdgesIdx g v) hsingf hsingm
              have hefm : pfe.main = true := by
                have := List.find?_some hfm
                simpa using this
              have hemm : pme.main = false := by
                have := List.find?_some hmm
                simpa using this
              have hif : ifa0 = pfi := congrArg Prod.fst hpairf
              have hff : f0 = pfe.src := congrArg Prod.snd hpairf
              have him2 : im0 = pmi := congrArg Prod.fst hpairm
              have hmm2 : m0 = pme.src := congrArg Prod.snd hpairm
              refine ⟨pfe, pme, hefm, hemm, hff, ?_, ?_, ?_⟩
              · rw [← hmm2]; exact hcond.1
              · rw [← hff]; exact hcond.2
              · rw [hif, him2]; exact hdec
        · simp only [if_neg hcond] at h; simp at h

theorem famDecision_keep_shapes {g : TheGraph} {v : Nat}
    (h : famDecision g v = .ok .keep) :
    ((inEdgesIdx g v).filter (fun p => !p.2.main) = []) ∨
    ((inEdgesIdx g v).find? (fun p => p.2.main)).isSome = true := by
  unfold famDecision at h
  cases hscan : scanParents (g.gedid v) (inEdgesIdx g v) none none with
  | error msg => rw [hscan] at h; simp at h
  | ok r =>
    obtain ⟨tf, tm⟩ := r
    rw [hscan] at h
    obtain ⟨hv1, hv2⟩ := scanParents_val (g.gedid v) (inEdgesIdx g v) none none tf tm hscan
    simp only [Option.none_orElse] at hv1 hv2
    cases tm with
    | none =>
      left
      cases hmm : (inEdgesIdx g v).find? (fun p => !p.2.main) with
      | none =>
        rw [List.filter_eq_nil_iff]
        exact List.find?_eq_none.mp hmm
      | some pm => rw [hmm] at hv2; simp at hv2
    | some p =>
      obtain ⟨im0, m0⟩ := p
      cases tf with
      | none => simp at h
      | some q =>
        right
        cases hfm : (inEdgesIdx g v).find? (fun p => p.2.main) with
        | none => rw [hfm] at hv1; simp at hv1
        | some pf => simp

/-! ### Effect of applying a decision -/
theorem applyAct_n (g : TheGraph) (v : Nat) (a : FamAct) : (applyAct g v a).n = g.n := by
  cases a <;> rfl

theorem applyAct_gedid (g : TheGraph) (v : Nat) (a : FamAct) :
    (applyAct g v a).gedid = g.gedid := by
  cases a <;> rfl

theorem applyAct_strip (g : TheGraph) (v : Nat) (a : FamAct) :
    stripMain (applyAct g v a).edges = stripMain g.edges := by
  cases a <;> simp [applyAct, stripMain_setMain]

theorem applyAct_inDeg (g : TheGraph) (v : Nat) (a : FamAct) (u : Nat) :
    inDeg (applyAct g v a) u = inDeg g u :=
  inDeg_eq_of_strip (applyAct_strip g v a) u

theorem inEdgesIdx_applyAct_promote (g : TheGraph) (v w im : Nat) :
    inEdgesIdx (applyAct g v (.promoteMother im)) w = updAt (inEdgesIdx g w) im true := by
  show inEdgesIdxAux w 0 (setMain g.edges im true) = _
  rw [inEdgesIdx_setMain]
  rfl

theorem inEdgesIdx_applyAct_swap (g : TheGraph) (v w im ifa f : Nat) :
    inEdgesIdx (applyAct g v (.swapToMother im ifa f)) w
      = updAt (updAt (inEdgesIdx g w) im true) ifa false := by
  show inEdgesIdxAux w 0 (setMain (setMain g.edges im true) ifa false) = _
  rw [inEdgesIdx_setMain, inEdgesIdx_setMain]
  rfl

theorem updAt_of_tgt_ne {g : TheGraph} {v w i : Nat} {e : GEdge}
    (hie : g.edges[i]? = some e) (hiv : e.tgt = v) (hw : w ≠ v) (b : Bool) :
    updAt (inEdgesIdx g w) i b = inEdgesIdx g w := by
  apply updAt_eq_self
  intro p hp hpi
  obtain ⟨hp1, hp2⟩ := inEdgesIdx_mem hp
  rw [hpi, hie] at hp1
  have : p.2 = e := by injection hp1.symm
  rw [this] at hp2
  exact hw (hp2.symm ▸ hiv ▸ rfl)

theorem applyAct_frame_ne {g : TheGraph} {v : Nat} {a : FamAct}
    (h : famDecision g v = .ok a) {w : Nat} (hw : w ≠ v) :
    inEdgesIdx (applyAct g v a) w = inEdgesIdx g w ∧
    (applyAct g v a).spouse w = g.spouse w := by
  cases a with
  | keep => exact ⟨rfl, rfl⟩
  | promoteMother im =>
    obtain ⟨em, hemm, hsing⟩ := famDecision_promote h
    have hmem : (im, em) ∈ inEdgesIdx g v := by rw [hsing]; simp
    obtain ⟨hie, hiv⟩ := inEdgesIdx_mem hmem
    constructor
    · rw [inEdgesIdx_applyAct_promote]
      exact updAt_of_tgt_ne hie hiv hw true
    · show (if w = v then none else g.spouse w) = g.spouse w
      rw [if_neg hw]
  | swapToMother im ifa f =>
    obtain ⟨ef, em, hefm, hemm, hff, hdm, hdf, hdec⟩ := famDecision_swap h
    have hmemf : (ifa, ef) ∈ inEdgesIdx g v := by
      rcases hdec with hd | hd <;> rw [hd] <;> simp
    have hmemm : (im, em) ∈ inEdgesIdx g v := by
      rcases hdec with hd | hd <;> rw [hd] <;> simp
    obtain ⟨hief, hivf⟩ := inEdgesIdx_mem hmemf
    obtain ⟨hiem, hivm⟩ := inEdgesIdx_mem hmemm
    constructor
    · rw [inEdgesIdx_applyAct_swap]
      rw [updAt_of_tgt_ne hiem hivm hw true]
      exact updAt_of_tgt_ne hief hivf hw false
    · show (if w = v then some f else g.spouse w) = g.spouse w
      rw [if_neg hw]

/-! ### Local stability: re-deciding an already fixed family keeps it -/
theorem famDecision_self {g : TheGraph} {v : Nat} {a : FamAct}
    (h : famDecision g v = .ok a) :
    famDecision (applyAct g v a) v = .ok .keep := by
  cases a with
  | keep => exact h
  | promoteMother im =>
    obtain ⟨em, hemm, hsing⟩ := famDecision_promote h
    have hnew : inEdgesIdx (applyAct g v (.promoteMother im)) v
        = [(im, { em with main := true })] := by
      rw [inEdgesIdx_applyAct_promote, hsing]
      simp [updAt]
    unfold famDecision
    rw [applyAct_gedid, hnew]
    simp [scanParents]
  | swapToMother im ifa f =>
    obtain ⟨ef, em, hefm, hemm, hff, hdm, hdf, hdec⟩ := famDecision_swap h
    have hd0 : inDeg (applyAct g v (.swapToMother im ifa f)) ef.src = 0 := by
      rw [applyAct_inDeg]; exact hdf
    rcases hdec with hd | hd
    · have hsorted := inEdgesIdxAux_sorted (v := v) g.edges 0
      have hlt : ifa < im := by
        rw [show inEdgesIdxAux v 0 g.edges = inEdgesIdx g v from rfl, hd] at hsorted
        simpa using hsorted
      have hnew : inEdgesIdx (applyAct g v (.swapToMother im ifa f)) v
          = [(ifa, { ef with main := false }), (im, { em with main := true })] := by
        rw [inEdgesIdx_applyAct_swap, hd]
        simp [updAt, Nat.ne_of_lt hlt, Nat.ne_of_gt hlt]
      unfold famDecision
      rw [applyAct_gedid, hnew]
      simp [scanParents, hd0]
    · have hsorted := inEdgesIdxAux_sorted (v := v) g.edges 0
      have hlt : im < ifa := by
        rw [show inEdgesIdxAux v 0 g.edges = inEdgesIdx g v from rfl, hd] at hsorted
        simpa using hsorted
      have hnew : inEdgesIdx (applyAct g v (.swapToMother im ifa f)) v
          = [(im, { em with main := true }), (ifa, { ef with main := false })] := by
        rw [inEdgesIdx_applyAct_swap, hd]
        simp [updAt, Nat.ne_of_lt hlt, Nat.ne_of_gt hlt]
      unfold famDecision
      rw [applyAct_gedid, hnew]
      simp [scanParents, hd0]

theorem keep_counts {g : TheGraph} {v : Nat}
    (h : famDecision g v = .ok .keep) :
    mainCnt g v ≤ 1 ∧ (1 ≤ inDeg g v → mainCnt g v = 1) := by
  have hok := (famDecision_ok_iff g v).mp ⟨.keep, h⟩
  refine ⟨hok.1, ?_⟩
  intro hdeg
  rcases famDecision_keep_shapes h with hsh | hsh
  · have hall : (inEdgesIdx g v).filter (fun p => p.2.main) = inEdgesIdx g v := by
      have hnn : ∀ y : Nat × GEdge, (!!y.2.main) = y.2.main := by intro y; simp
      have hv := filter_not_eq_self_of_filter_nil
        (fun p => !p.2.main) (inEdgesIdx g v) hsh
      simpa only [hnn] using hv
    have hok1 := hok.1
    unfold mainCnt at hok1 ⊢
    rw [inDeg_eq_length_inEdgesIdx] at hdeg
    rw [hall] at hok1 ⊢
    omega
  · obtain ⟨pf, hpf⟩ := Option.isSome_iff_exists.mp hsh
    have hp : pf.2.main = true := by
      have hfs := List.find?_some hpf
      simpa using hfs
    have hmem : pf ∈ (inEdgesIdx g v).filter (fun p => p.2.main) :=
      List.mem_filter.mpr ⟨List.mem_of_find?_eq_some hpf, by simpa using hp⟩
    have hlen : 0 < mainCnt g v := List.length_pos_of_mem hmem
    have hok1 := hok.1
    omega

/-! ### The decision depends only on local data -/
theorem famDecision_congr {g h : TheGraph} {v : Nat}
    (h1 : inEdgesIdx g v = inEdgesIdx h v) (h2 : g.gedid v = h.gedid v)
    (h3 : ∀ u, inDeg g u = inDeg h u) :
    famDecision g v = famDecision h v := by
  unfold famDecision
  rw [h1, h2]
  cases scanParents (h.gedid v) (inEdgesIdx h v) none none with
  | error msg => rfl
  | ok r =>
    obtain ⟨tf, tm⟩ := r
    cases tm with
    | none => rfl
    | some p =>
      obtain ⟨im, m⟩ := p
      cases tf with
      | none => rfl
      | some q =>
        obtain ⟨ifa, f⟩ := q
        simp only
        rw [h3 m, h3 f]

theorem applyAct_congr {g h : TheGraph} {v : Nat} (a : FamAct)
    (he : inEdgesIdx g v = inEdgesIdx h v) (hs : g.spouse v = h.spouse v) :
    inEdgesIdx (applyAct g v a) v = inEdgesIdx (applyAct h v a) v ∧
    (applyAct g v a).spouse v = (applyAct h v a).spouse v := by
  cases a with
  | keep => exact ⟨he, hs⟩
  | promoteMother im =>
    refine ⟨?_, ?_⟩
    · rw [inEdgesIdx_applyAct_promote, inEdgesIdx_applyAct_promote, he]
    · show (if v = v then none else g.spouse v)
        = (if v = v then none else h.spouse v)
      rw [if_pos rfl, if_pos rfl]
  | swapToMother im ifa f =>
    refine ⟨?_, ?_⟩
    · rw [inEdgesIdx_applyAct_swap, inEdgesIdx_applyAct_swap, he]
    · show (if v = v then some f else g.spouse v)
        = (if v = v then some f else h.spouse v)
      rw [if_pos rfl, if_pos rfl]

/-! ### The whole resolver pass -/
theorem foldlM_fix_cons_ok {g g1 : TheGraph} {v : Nat} {L : List Nat}
    (h : fixStep g v = .ok g1) :
    List.foldlM fixStep g (v :: L) = List.foldlM fixStep g1 L := by
  show (fixStep g v >>= fun g2 => List.foldlM fixStep g2 L) = _
  rw [h]
  rfl

theorem foldlM_fix_cons_err {g : TheGraph} {v : Nat} {L : List Nat} {msg : String}
    (h : fixStep g v = .error msg) :
    List.foldlM fixStep g (v :: L) = .error msg := by
  show (fixStep g v >>= fun g2 => List.foldlM fixStep g2 L) = _
  rw [h]
  rfl

theorem foldFix (L : List Nat) :
    ∀ g : TheGraph, L.Nodup →
      ((∀ v ∈ L, isFam g v = true → mainCnt g v ≤ 1 ∧ nonMainCnt g v ≤ 1) ↔
        ∃ G, List.foldlM fixStep g L = .ok G)
      ∧ ∀ G, List.foldlM fixStep g L = .ok G →
          G.n = g.n ∧ G.gedid = g.gedid ∧ stripMain G.edges = stripMain g.edges ∧
          (∀ w, w ∉ L → inEdgesIdx G w = inEdgesIdx g w ∧ G.spouse w = g.spouse w) ∧
          (∀ v ∈ L, isFam g v = true →
            ∃ a, famDecision g v = .ok a ∧
              inEdgesIdx G v = inEdgesIdx (applyAct g v a) v ∧
              G.spouse v = (applyAct g v a).spouse v) ∧
          (∀ v ∈ L, isFam g v = false →
            inEdgesIdx G v = inEdgesIdx g v ∧ G.spouse v = g.spouse v) := by
  induction L with
  | nil =>
    intro g _
    constructor
    · constructor
      · intro _; exact ⟨g, rfl⟩
      · rintro _ u hu; simp at hu
    · intro G hG
      have hGg : G = g := by
        have h2 : (Except.ok g : Except String TheGraph) = Except.ok G := hG
        injection h2.symm
      subst hGg
      refine ⟨rfl, rfl, rfl, ?_, ?_, ?_⟩
      · intro w _; exact ⟨rfl, rfl⟩
      · intro u hu; simp at hu
      · intro u hu; simp at hu
  | cons v L ih =>
    intro g hnd
    obtain ⟨hvL, hndL⟩ := List.nodup_cons.mp hnd
    by_cases hfam : isFam g v = true
    · cases hdec : famDecision g v with
      | error msg =>
        have hstep : fixStep g v = .error msg := by
          unfold fixStep processFamily
          rw [if_pos hfam, hdec]
          rfl
        constructor
        · constructor
          · intro hcnt
            exfalso
            have hc := hcnt v (by simp) hfam
            obtain ⟨a, ha⟩ := (famDecision_ok_iff g v).mpr hc
            rw [hdec] at ha
            simp at ha
          · rintro ⟨G, hG⟩
            rw [foldlM_fix_cons_err hstep] at hG
            simp at hG
        · intro G hG
          rw [foldlM_fix_cons_err hstep] at hG
          simp at hG
      | ok a =>
        have hstep : fixStep g v = .ok (applyAct g v a) := by
          unfold fixStep processFamily
          rw [if_pos hfam, hdec]
          rfl
        obtain ⟨hiff1, hpost1⟩ := ih (applyAct g v a) hndL
        have hgid : (applyAct g v a).gedid = g.gedid := applyAct_gedid g v a
        have hframe : ∀ w, w ≠ v →
            inEdgesIdx (applyAct g v a) w = inEdgesIdx g w ∧
            (applyAct g v a).spouse w = g.spouse w :=
          fun w hw => applyAct_frame_ne hdec hw
        have hfamEq : ∀ u, isFam (applyAct g v a) u = isFam g u := by
          intro u; unfold isFam; rw [hgid]
        have hcntEq : ∀ u, u ≠ v →
            mainCnt (applyAct g v a) u = mainCnt g u ∧
            nonMainCnt (applyAct g v a) u = nonMainCnt g u := by
          intro u hu
          unfold mainCnt nonMainCnt
          rw [(hframe u hu).1]
          exact ⟨rfl, rfl⟩
        rw [foldlM_fix_cons_ok hstep]
        constructor
        · constructor
          · intro hcnt
            apply hiff1.mp
            intro u hu hufam
            have hune : u ≠ v := fun he => hvL (he ▸ hu)
            have hc := hcnt u (by simp [hu]) (by rw [← hfamEq u]; exact hufam)
            rw [(hcntEq u hune).1, (hcntEq u hune).2]
            exact hc
          · rintro ⟨G, hG⟩
            intro u hu hufam
            rcases List.mem_cons.mp hu with rfl | hu2
            · exact (famDecision_ok_iff g u).mp ⟨a, hdec⟩
            · have hune : u ≠ v := fun he => hvL (he ▸ hu2)
              have hc := hiff1.mpr ⟨G, hG⟩ u hu2 (by rw [hfamEq u]; exact hufam)
              rw [(hcntEq u hune).1, (hcntEq u hune).2] at hc
              exact hc
        · intro G hG
          obtain ⟨hn, hid, hstr, hout, hfams, hnonf⟩ := hpost1 G hG
          refine ⟨?_, ?_, ?_, ?_, ?_, ?_⟩
          · rw [hn, applyAct_n]
          · rw [hid, hgid]
          · rw [hstr, applyAct_strip]
          · intro w hw
            have hwv : w ≠ v := fun he => hw (by rw [he]; simp)
            have hwL : w ∉ L := fun he => hw (by simp [he])
            obtain ⟨ha1, ha2⟩ := hout w hwL
            obtain ⟨hb1, hb2⟩ := hframe w hwv
            exact ⟨ha1.trans hb1, ha2.trans hb2⟩
          · intro u hu hufam
            rcases List.mem_cons.mp hu with rfl | hu2
            · exact ⟨a, hdec, (hout u hvL).1, (hout u hvL).2⟩
            · have hune : u ≠ v := fun he => hvL (he ▸ hu2)
              obtain ⟨a2, ha2, hc1, hc2⟩ := hfams u hu2 (by rw [hfamEq u]; exact hufam)
              have hdeq : famDecision g u = famDecision (applyAct g v a) u :=
                famDecision_congr ((hframe u hune).1.symm)
                  (congrFun hgid u).symm
                  (fun x => (applyAct_inDeg g v a x).symm)
              have hcong := applyAct_congr (g := applyAct g v a) (h := g)
                (v := u) a2 ((hframe u hune).1) ((hframe u hune).2)
              exact ⟨a2, hdeq.trans ha2, hc1.trans hcong.1, hc2.trans hcong.2⟩
          · intro u hu hufam
            rcases List.mem_cons.mp hu with rfl | hu2
            · rw [hfam] at hufam; simp at hufam
            · have hune : u ≠ v := fun he => hvL (he ▸ hu2)
              obtain ⟨hc1, hc2⟩ := hnonf u hu2 (by rw [hfamEq u]; exact hufam)
              exact ⟨hc1.trans (hframe u hune).1, hc2.trans (hframe u hune).2⟩
    · have hfam2 : isFam g v = false := by
        cases hb : isFam g v
        · rfl
        · exact absurd hb hfam
      have hstep : fixStep g v = .ok g := by
        unfold fixStep
        rw [if_neg (by rw [hfam2]; simp)]
      rw [foldlM_fix_cons_ok hstep]
      obtain ⟨hiff1, hpost1⟩ := ih g hndL
      constructor
      · constructor
        · intro hcnt
          apply hiff1.mp
          intro u hu hufam
          exact hcnt u (by simp [hu]) hufam
        · rintro ⟨G, hG⟩ u hu hufam
          rcases List.mem_cons.mp hu with rfl | hu2
          · rw [hfam2] at hufam; simp at hufam
          · exact hiff1.mpr ⟨G, hG⟩ u hu2 hufam
      · intro G hG
        obtain ⟨hn, hid, hstr, hout, hfams, hnonf⟩ := hpost1 G hG
        refine ⟨hn, hid, hstr, ?_, ?_, ?_⟩
        · intro w hw
          exact hout w (fun he => hw (by simp [he]))
        · intro u hu hufam
          rcases List.mem_cons.mp hu with rfl | hu2
          · rw [hfam2] at hufam; simp at hufam
          · exact hfams u hu2 hufam
        · intro u hu hufam
          rcases List.mem_cons.mp hu with rfl | hu2
          · exact hout u hvL
          · exact hnonf u hu2 hufam

theorem strip_mem {l l2 : List GEdge} (h : stripMain l = stripMain l2) {e : GEdge}
    (he : e ∈ l) : ∃ e2 ∈ l2, e2.src = e.src ∧ e2.tgt = e.tgt := by
  have hm : (e.src, e.tgt) ∈ stripMain l := List.mem_map.mpr ⟨e, he, rfl⟩
  rw [h] at hm
  obtain ⟨e2, he2, hq⟩ := List.mem_map.mp hm
  obtain ⟨h1, h2⟩ := Prod.mk.injEq .. ▸ hq
  exact ⟨e2, he2, h1, h2⟩

theorem inEdgesIdxAux_nil_of_no_tgt {v : Nat} :
    ∀ (l : List GEdge) (j : Nat), (∀ e ∈ l, e.tgt ≠ v) → inEdgesIdxAux v j l = [] := by
  intro l
  induction l with
  | nil => intro j _; rfl
  | cons e es ih =>
    intro j hno
    rw [inEdgesIdxAux, if_neg (hno e (by simp))]
    exact ih (j + 1) (fun x hx => hno x (by simp [hx]))

theorem inEdgesIdx_nil_of_ge {g G : TheGraph} (hwf : WF g)
    (hstr : stripMain G.edges = stripMain g.edges) {v : Nat} (hv : ¬v < g.n) :
    inEdgesIdx G v = [] := by
  apply inEdgesIdxAux_nil_of_no_tgt
  intro e he hev
  obtain ⟨e2, he2, _, ht⟩ := strip_mem hstr he
  have := (hwf e2 he2).2
  rw [ht, hev] at this
  exact hv this

theorem fixMainBranch_stable {g G : TheGraph} (h : fixMainBranch g = .ok G)
    {v : Nat} (hv : v < g.n) (hfam : isFam g v = true) :
    famDecision G v = .ok .keep := by
  unfold fixMainBranch at h
  have hf := foldFix (List.range g.n) g (List.nodup_range g.n)
  have hpost := hf.2 G h
  obtain ⟨a, ha, hc1, hc2⟩ := hpost.2.2.2.2.1 v (List.mem_range.mpr hv) hfam
  have hstab := famDecision_self ha
  have hcong : famDecision G v = famDecision (applyAct g v a) v := by
    apply famDecision_congr hc1
    · rw [hpost.2.1, applyAct_gedid]
    · intro u
      rw [inDeg_eq_of_strip hpost.2.2.1, applyAct_inDeg]
  rw [hcong, hstab]

/-- C1: for every graph on which the Main-Line Resolver (`fix_main_branch`)
completes without raising, every Family vertex afterwards has at most one
incoming parent edge with is-main set, and exactly one such edge if the
family has at least one parent. -/
theorem c1_resolver_main_unique (g G : TheGraph) (hwf : WF g)
    (h : fixMainBranch g = .ok G) :
    ∀ v : Nat, isFam G v = true →
      mainCnt G v ≤ 1 ∧ (1 ≤ inDeg G v → mainCnt G v = 1) := by
  intro v hfam
  have hf := foldFix (List.range g.n) g (List.nodup_range g.n)
  have hG : List.foldlM fixStep g (List.range g.n) = .ok G := h
  have hpost := hf.2 G hG
  by_cases hv : v < g.n
  · have hfamg : isFam g v = true := by
      unfold isFam at hfam ⊢
      rw [hpost.2.1] at hfam
      exact hfam
    exact keep_counts (fixMainBranch_stable h hv hfamg)
  · have hnil : inEdgesIdx G v = [] := inEdgesIdx_nil_of_ge hwf hpost.2.2.1 hv
    constructor
    · unfold mainCnt; rw [hnil]; simp
    · intro hdeg
      rw [inDeg_eq_length_inEdgesIdx, hnil] at hdeg
      simp at hdeg

/-- C9: `fix_main_branch` raises if and only if some Family vertex has two
incoming parent edges in the same role: two marked main ("multiple
fathers") or two unmarked ("multiple mothers").  On every graph free of
both conditions it completes without raising. -/
theorem c9_error_iff (g : TheGraph) :
    (∃ msg, fixMainBranch g = .error msg) ↔
      ∃ v, v < g.n ∧ isFam g v = true ∧
        (2 ≤ mainCnt g v ∨ 2 ≤ nonMainCnt g v) := by
  have hf := foldFix (List.range g.n) g (List.nodup_range g.n)
  constructor
  · rintro ⟨msg, hmsg⟩
    by_contra hno
    push_neg at hno
    have hall : ∀ v ∈ List.range g.n, isFam g v = true →
        mainCnt g v ≤ 1 ∧ nonMainCnt g v ≤ 1 := by
      intro v hv hfam
      have h2 := hno v (List.mem_range.mp hv) hfam
      omega
    obtain ⟨G, hG⟩ := hf.1.mp hall
    unfold fixMainBranch at hmsg
    rw [hmsg] at hG
    simp at hG
  · rintro ⟨v, hv, hfam, hbad⟩
    cases hres : fixMainBranch g with
    | error msg => exact ⟨msg, rfl⟩
    | ok G =>
      unfold fixMainBranch at hres
      have hc := hf.1.mpr ⟨G, hres⟩ v (List.mem_range.mpr hv) hfam
      omega

theorem stable_fold {G : TheGraph} :
    ∀ L : List Nat, (∀ v ∈ L, fixStep G v = .ok G) →
      List.foldlM fixStep G L = .ok G := by
  intro L
  induction L with
  | nil => intro _; rfl
  | cons v L ih =>
    intro h
    rw [foldlM_fix_cons_ok (h v (by simp))]
    exact ih (fun u hu => h u (by simp [hu]))

/-- C6: running `fix_main_branch` a second time on the result of a
successful run changes nothing: the second run succeeds and returns the
very same graph (hence the same is-main flag on every edge and the same
spouse field on every Family vertex). -/
theorem c6_resolver_idempotent (g G : TheGraph) (h : fixMainBranch g = .ok G) :
    fixMainBranch G = .ok G := by
  have hf := foldFix (List.range g.n) g (List.nodup_range g.n)
  have hG : List.foldlM fixStep g (List.range g.n) = .ok G := h
  have hpost := hf.2 G hG
  unfold fixMainBranch
  rw [hpost.1]
  apply stable_fold
  intro v hv
  by_cases hfam : isFam G v = true
  · have hfamg : isFam g v = true := by
      unfold isFam at hfam ⊢
      rw [hpost.2.1] at hfam
      exact hfam
    have hstab := fixMainBranch_stable h (List.mem_range.mp hv) hfamg
    unfold fixStep processFamily
    rw [if_pos hfam, hstab]
    rfl
  · unfold fixStep
    rw [if_neg hfam]

theorem find?_eq_head_filter {α} (p : α → Bool) :
    ∀ l : List α, l.find? p = (l.filter p).head? := by
  intro l
  induction l with
  | nil => rfl
  | cons x xs ih =>
    cases hx : p x with
    | true => rw [List.find?_cons_of_pos _ hx, List.filter_cons, if_pos hx]; rfl
    | false =>
      rw [List.find?_cons_of_neg _ (by simp [hx]), List.filter_cons, if_neg (by simp [hx])]
      exact ih

/-- C2 (amended): for a Family with exactly two parents of which exactly one
edge is marked main after loading, `fix_main_branch` keeps that edge main
and leaves the spouse field alone — except when the non-main parent has
tracked ancestry (positive in-degree) and the main parent has none, in
which case it transfers the main flag to the non-main parent edge and
records the originally-main parent in the spouse field. -/
theorem c2_two_parent_rule (g G : TheGraph) (v i j : Nat) (ef em : GEdge)
    (h : fixMainBranch g = .ok G) (hfam : isFam g v = true) (hv : v < g.n)
    (hmf : (inEdgesIdx g v).filter (fun p => p.2.main) = [(i, ef)])
    (hnm : (inEdgesIdx g v).filter (fun p => !p.2.main) = [(j, em)]) :
    if inDeg g em.src ≠ 0 ∧ inDeg g ef.src = 0
    then ((inEdgesIdx G v).filter (fun p => p.2.main)).map Prod.fst = [j] ∧
         G.spouse v = some ef.src
    else ((inEdgesIdx G v).filter (fun p => p.2.main)).map Prod.fst = [i] ∧
         G.spouse v = g.spouse v := by
  have hf := foldFix (List.range g.n) g (List.nodup_range g.n)
  have hG : List.foldlM fixStep g (List.range g.n) = .ok G := h
  have hpost := hf.2 G hG
  obtain ⟨a, ha, hc1, hc2⟩ := hpost.2.2.2.2.1 v (List.mem_range.mpr hv) hfam
  -- compute the decision from the two-parent hypothesis
  have hff : (inEdgesIdx g v).find? (fun p => p.2.main) = some (i, ef) := by
    rw [find?_eq_head_filter, hmf]; rfl
  have hfm : (inEdgesIdx g v).find? (fun p => !p.2.main) = some (j, em) := by
    rw [find?_eq_head_filter, hnm]; rfl
  have hok : ∃ r, scanParents (g.gedid v) (inEdgesIdx g v) none none = .ok r := by
    rw [scanParents_ok_iff]
    rw [hmf, hnm]
    simp [optBit]
  obtain ⟨⟨tf, tm⟩, hscan⟩ := hok
  obtain ⟨hv1, hv2⟩ := scanParents_val (g.gedid v) (inEdgesIdx g v) none none tf tm hscan
  rw [hff] at hv1
  rw [hfm] at hv2
  simp only [Option.none_orElse] at hv1 hv2
  have hv3 : tf = some (i, ef.src) := by rw [hv1]; rfl
  have hv4 : tm = some (j, em.src) := by rw [hv2]; rfl
  have hdecide : famDecision g v
      = if inDeg g em.src ≠ 0 ∧ inDeg g ef.src = 0
        then .ok (.swapToMother j i ef.src) else .ok .keep := by
    unfold famDecision
    rw [hscan, hv3, hv4]
  have hdec := filter_pair_decomp (fun p => p.2.main) (inEdgesIdx g v) hmf hnm
  have hsorted := inEdgesIdxAux_sorted (v := v) g.edges 0
  have hefm : ef.main = true := by
    have hm : (i, ef) ∈ (inEdgesIdx g v).filter (fun p => p.2.main) := by
      rw [hmf]; simp
    simpa using (List.mem_filter.mp hm).2
  have hemm : em.main = false := by
    have hm : (j, em) ∈ (inEdgesIdx g v).filter (fun p => !p.2.main) := by
      rw [hnm]; simp
    simpa using (List.mem_filter.mp hm).2
  by_cases hcond : inDeg g em.src ≠ 0 ∧ inDeg g ef.src = 0
  · rw [if_pos hcond]
    rw [if_pos hcond] at hdecide
    rw [hdecide] at ha
    have haa : a = .swapToMother j i ef.src := by injection ha.symm
    subst haa
    have hspouse : G.spouse v = some ef.src := by
      rw [hc2]
      show (if v = v then some ef.src else g.spouse v) = some ef.src
      rw [if_pos rfl]
    refine ⟨?_, hspouse⟩
    rw [hc1, inEdgesIdx_applyAct_swap]
    rcases hdec with hd | hd
    · have hij : i < j := by
        rw [show inEdgesIdxAux v 0 g.edges = inEdgesIdx g v from rfl, hd] at hsorted
        simpa using hsorted
      rw [hd]
      simp [updAt, Nat.ne_of_lt hij, Nat.ne_of_gt hij, hefm, hemm, List.filter_cons]
    · have hij : j < i := by
        rw [show inEdgesIdxAux v 0 g.edges = inEdgesIdx g v from rfl, hd] at hsorted
        simpa using hsorted
      rw [hd]
      simp [updAt, Nat.ne_of_lt hij, Nat.ne_of_gt hij, hefm, hemm, List.filter_cons]
  · rw [if_neg hcond]
    rw [if_neg hcond] at hdecide
    rw [hdecide] at ha
    have haa : a = .keep := by injection ha.symm
    subst haa
    refine ⟨?_, hc2⟩
    rw [hc1]
    show ((inEdgesIdx g v).filter (fun p => p.2.main)).map Prod.fst = [i]
    rw [hmf]
    rfl

theorem fix_c1g : fixMainBranch c1g = .ok c1g := rfl

theorem fix_gc2 : fixMainBranch gc2 = .ok gc2A := rfl

/-- C1 witness: the single-parent family of `c1g` ends with exactly one
main parent edge. -/
theorem c1_witness : mainCnt c1g 1 ≤ 1 ∧ mainCnt c1g 1 = 1 := by
  have h := c1_resolver_main_unique c1g c1g (by decide) fix_c1g 1 (by decide)
  exact ⟨h.1, h.2 (by decide)⟩

/-- C6 witness: a second resolver run on a concrete resolved graph
returns the graph unchanged. -/
theorem c6_witness : fixMainBranch c1g = .ok c1g :=
  c6_resolver_idempotent c1g c1g fix_c1g

/-- C2 counterexample: in `gc2` family `F1` (= vertex 2) has exactly two
parents with exactly one parent edge marked main at load time, yet
`fix_main_branch` clears that edge (the flags become
`[false, true, true]`) and overwrites the spouse field with the
originally-main parent `I1` (= vertex 0): the claim "leaves that edge
marked main ... and records the other parent in the spouse field" fails. -/
theorem c2_counterexample :
    (inEdgesIdx gc2 2).filter (fun p => p.2.main) = [(0, ⟨0, 2, true⟩)] ∧
    (inEdgesIdx gc2 2).filter (fun p => !p.2.main) = [(1, ⟨1, 2, false⟩)] ∧
    (fixMainBranch gc2).map (fun G => G.edges.map GEdge.main)
      = .ok [false, true, true] ∧
    (fixMainBranch gc2).map (fun G => G.spouse 2) = .ok (some 0) :=
  ⟨rfl, rfl, rfl, rfl⟩

/-- C2 (amended) witness: on `gc2` the exceptional branch of the rule
fires and transfers the main flag. -/
theorem c2_witness :
    ((inEdgesIdx gc2A 2).filter (fun p => p.2.main)).map Prod.fst = [1] ∧
    gc2A.spouse 2 = some 0 := by
  have h := c2_two_parent_rule gc2 gc2A 2 0 1 ⟨0, 2, true⟩ ⟨1, 2, false⟩
    fix_gc2 (by decide) (by decide) rfl rfl
  rw [if_pos (by decide)] at h
  exact h

theorem nodup_bound_length {n : Nat} {vis : List Nat} (hnd : vis.Nodup)
    (hlt : ∀ x ∈ vis, x < n) : vis.length ≤ n := by
  have hsub : vis.toFinset ⊆ Finset.range n := by
    intro x hx
    rw [Finset.mem_range]
    exact hlt x (List.mem_toFinset.mp hx)
  have hcard := Finset.card_le_card hsub
  rw [Finset.card_range, List.toFinset_card_of_nodup hnd] at hcard
  exact hcard

theorem nodup_subset_length {l1 l2 : List Nat} (h1 : l1.Nodup) (hs : l1 ⊆ l2) :
    l1.length ≤ l2.length := by
  have hc : l1.toFinset ⊆ l2.toFinset := by
    intro x hx
    exact List.mem_toFinset.mpr (hs (List.mem_toFinset.mp hx))
  have := Finset.card_le_card hc
  rw [List.toFinset_card_of_nodup h1] at this
  exact this.trans (l2.toFinset_card_le)

theorem dfs_list_step (adj : Nat → List Nat) (n fuel : Nat)
    (hvisit : VisitStmt adj n fuel) : ListStmt adj n fuel := by
  intro ws
  induction ws with
  | nil =>
    intro vis _ hnd hlt
    refine ⟨fun x hx => hx, hnd, hlt, fun x hx => Or.inl hx, ?_, ?_⟩
    · intro _
      refine ⟨fun w hw => absurd hw (by simp), ?_⟩
      intro x hx hxv
      exact absurd hx hxv
    · intro x
      constructor
      · intro hx; simp [dfsChildren] at hx
      · rintro ⟨hx1, hx2⟩; exact absurd hx1 hx2
  | cons w ws ih =>
    intro vis hws hnd hlt
    by_cases hw : w ∈ vis
    · simp only [dfsChildren, if_pos hw]
      obtain ⟨hsub, hnd2, hlt2, hsound, hclos, hdisc⟩ :=
        ih vis (fun u hu => hws u (by simp [hu])) hnd hlt
      refine ⟨hsub, hnd2, hlt2, ?_, ?_, hdisc⟩
      · intro x hx
        rcases hsound x hx with hx2 | ⟨u, hu, hr⟩
        · exact Or.inl hx2
        · exact Or.inr ⟨u, by simp [hu], hr⟩
      · intro hfl
        obtain ⟨hc1, hc2⟩ := hclos hfl
        refine ⟨?_, hc2⟩
        intro u hu
        rcases List.mem_cons.mp hu with rfl | hu2
        · exact hsub hw
        · exact hc1 u hu2
    · simp only [dfsChildren, if_neg hw]
      obtain ⟨hsub1, hnd1, hlt1, hsound1, hclos1, hdisc1⟩ :=
        hvisit w vis hw hnd hlt (hws w (by simp))
      obtain ⟨hsub2, hnd2, hlt2, hsound2, hclos2, hdisc2⟩ :=
        ih (dfsVisit adj fuel w vis).2 (fun u hu => hws u (by simp [hu])) hnd1 hlt1
      refine ⟨fun x hx => hsub2 (hsub1 hx), hnd2, hlt2, ?_, ?_, ?_⟩
      · intro x hx
        rcases hsound2 x hx with hx2 | ⟨u, hu, hr⟩
        · rcases hsound1 x hx2 with hx3 | hr
          · exact Or.inl hx3
          · exact Or.inr ⟨w, by simp, hr⟩
        · exact Or.inr ⟨u, by simp [hu], hr⟩
      · intro hfl
        have hfl2 : n + 1 ≤ fuel + (dfsVisit adj fuel w vis).2.length := by
          have := nodup_subset_length hnd hsub1
          omega
        obtain ⟨hc11, hc12⟩ := hclos1 hfl
        obtain ⟨hc21, hc22⟩ := hclos2 hfl2
        constructor
        · intro u hu
          rcases List.mem_cons.mp hu with rfl | hu2
          · exact hsub2 hc11
          · exact hc21 u hu2
        · intro x hx hxv w2 hw2
          by_cases hx1 : x ∈ (dfsVisit adj fuel w vis).2
          · exact hsub2 (hc12 x hx1 hxv w2 hw2)
          · exact hc22 x hx hx1 w2 hw2
      · intro x
        rw [List.mem_append]
        constructor
        · intro hx
          rcases hx with hx | hx
          · obtain ⟨hx1, hx2⟩ := (hdisc1 x).mp hx
            exact ⟨hsub2 hx1, hx2⟩
          · obtain ⟨hx1, hx2⟩ := (hdisc2 x).mp hx
            exact ⟨hx1, fun hxv => hx2 (hsub1 hxv)⟩
        · rintro ⟨hx1, hx2⟩
          by_cases hx3 : x ∈ (dfsVisit adj fuel w vis).2
          · exact Or.inl ((hdisc1 x).mpr ⟨hx3, hx2⟩)
          · exact Or.inr ((hdisc2 x).mpr ⟨hx1, hx3⟩)

theorem dfs_master (adj : Nat → List Nat) (n : Nat)
    (hadj : ∀ u w, w ∈ adj u → w < n) :
    ∀ fuel : Nat, VisitStmt adj n fuel ∧ ListStmt adj n fuel := by
  intro fuel
  induction fuel with
  | zero =>
    have hvisit : VisitStmt adj n 0 := by
      intro v vis hvv hnd hlt hv
      refine ⟨fun x hx => hx, hnd, hlt, fun x hx => Or.inl hx, ?_, ?_⟩
      · intro hfl
        exfalso
        have := nodup_bound_length hnd hlt
        omega
      · intro x
        constructor
        · intro hx; simp [dfsVisit] at hx
        · rintro ⟨hx1, hx2⟩; exact absurd hx1 hx2
    exact ⟨hvisit, dfs_list_step adj n 0 hvisit⟩
  | succ fuel ihf =>
    have hlist := dfs_list_step adj n fuel (ihf.1)
    have hvisit : VisitStmt adj n (fuel + 1) := by
      intro v vis hvv hnd hlt hv
      have hndc : (v :: vis).Nodup := List.nodup_cons.mpr ⟨hvv, hnd⟩
      have hltc : ∀ x ∈ v :: vis, x < n := by
        intro x hx
        rcases List.mem_cons.mp hx with rfl | hx2
        · exact hv
        · exact hlt x hx2
      obtain ⟨hsub, hnd2, hlt2, hsound, hclos, hdisc⟩ :=
        hlist (adj v) (v :: vis) (fun w hw => hadj v w hw) hndc hltc
      simp only [dfsVisit]
      have hvin : v ∈ (dfsChildren (dfsVisit adj fuel) (adj v) (v :: vis)).2 := hsub (by simp)
      refine ⟨fun x hx => hsub (by simp [hx]), hnd2, hlt2, ?_, ?_, ?_⟩
      · intro x hx
        rcases hsound x hx with hx2 | ⟨u, hu, hr⟩
        · rcases List.mem_cons.mp hx2 with rfl | hx3
          · exact Or.inr Relation.ReflTransGen.refl
          · exact Or.inl hx3
        · exact Or.inr (Relation.ReflTransGen.head hu hr)
      · intro hfl
        have hfl2 : n + 1 ≤ fuel + (v :: vis).length := by
          simp only [List.length_cons]
          omega
        obtain ⟨hc1, hc2⟩ := hclos hfl2
        refine ⟨hvin, ?_⟩
        intro x hx hxv w hw
        by_cases hxv2 : x = v
        · subst hxv2
          exact hc1 w hw
        · exact hc2 x hx (by simp [hxv, hxv2]) w hw
      · intro x
        simp only [List.mem_cons, List.mem_append]
        constructor
        · intro hx
          rcases hx with hx | hx | hx
          · have hxv2 : x = v := by injection hx
            subst hxv2
            exact ⟨hvin, hvv⟩
          · obtain ⟨hx1, hx2⟩ := (hdisc x).mp hx
            exact ⟨hx1, fun hxv => hx2 (by simp [hxv])⟩
          · rcases hx with hx | hx
            · exact absurd hx (by simp)
            · exact absurd hx (by simp)
        · rintro ⟨hx1, hx2⟩
          by_cases hxv2 : x = v
          · exact Or.inl (by rw [hxv2])
          · exact Or.inr (Or.inl ((hdisc x).mpr ⟨hx1, by simp [hx2, hxv2]⟩))
    exact ⟨hvisit, dfs_list_step adj n (fuel + 1) hvisit⟩

/-- The visited set of a full-fuel DFS from `r` is exactly the set of
vertices reachable from `r`. -/
theorem dfs_reach_iff (adj : Nat → List Nat) (n : Nat)
    (hadj : ∀ u w, w ∈ adj u → w < n) {r : Nat} (hr : r < n) (x : Nat) :
    x ∈ (dfsVisit adj (n + 1) r []).2 ↔ Reach adj r x := by
  obtain ⟨hsub, hnd2, hlt2, hsound, hclos, hdisc⟩ :=
    (dfs_master adj n hadj (n + 1)).1 r [] (by simp) List.nodup_nil (by simp) hr
  obtain ⟨hrin, hcl⟩ := hclos (by simp)
  constructor
  · intro hx
    rcases hsound x hx with hx2 | hx2
    · simp at hx2
    · exact hx2
  · intro hreach
    induction hreach with
    | refl => exact hrin
    | tail hr1 hstep ih2 =>
      exact hcl _ ih2 (by simp) _ hstep

/-- The `disc` events of a full-fuel DFS are exactly the visited set. -/
theorem dfs_disc_iff (adj : Nat → List Nat) (n : Nat)
    (hadj : ∀ u w, w ∈ adj u → w < n) {r : Nat} (hr : r < n) (x : Nat) :
    Ev.disc x ∈ (dfsVisit adj (n + 1) r []).1 ↔
      x ∈ (dfsVisit adj (n + 1) r []).2 := by
  obtain ⟨hsub, hnd2, hlt2, hsound, hclos, hdisc⟩ :=
    (dfs_master adj n hadj (n + 1)).1 r [] (by simp) List.nodup_nil (by simp) hr
  rw [hdisc x]
  simp

theorem mainAdj_bound (g : TheGraph) (hwf : WF g) :
    ∀ u w, w ∈ mainAdj g u → w < g.n := by
  intro u w hw
  unfold mainAdj at hw
  obtain ⟨e, he, rfl⟩ := List.mem_map.mp hw
  exact (hwf e (List.mem_of_mem_filter he)).2

theorem allAdj_bound (g : TheGraph) (hwf : WF g) :
    ∀ u w, w ∈ allAdj g u → w < g.n := by
  intro u w hw
  unfold allAdj at hw
  obtain ⟨e, he, rfl⟩ := List.mem_map.mp hw
  exact (hwf e (List.mem_of_mem_filter he)).2

theorem revAdj_bound (g : TheGraph) (hwf : WF g) :
    ∀ u w, w ∈ revAdj g u → w < g.n := by
  intro u w hw
  unfold revAdj at hw
  obtain ⟨e, he, rfl⟩ := List.mem_map.mp hw
  exact (hwf e (List.mem_of_mem_filter he)).1

theorem roots0_mem (g : TheGraph) (r : Nat) :
    r ∈ roots0 g ↔ (r < g.n ∧ inDeg g r = 0) := by
  unfold roots0
  rw [List.mem_filter, List.mem_range]
  simp

theorem records_mem (g : TheGraph) (hwf : WF g) {r : Nat} (hr : r < g.n) (x : Nat) :
    x ∈ recordsOfDfs g r ↔
      ((isInd g x = true ∧ Reach (mainAdj g) r x) ∨
       (∃ F, isFam g F = true ∧ g.spouse F = some x ∧ Reach (mainAdj g) r F)) := by
  unfold recordsOfDfs
  rw [List.mem_flatMap]
  constructor
  · rintro ⟨ev, hev, hx⟩
    cases ev with
    | fin v => simp at hx
    | disc v =>
      have hv : Reach (mainAdj g) r v := by
        rw [← dfs_reach_iff (mainAdj g) g.n (mainAdj_bound g hwf) hr v]
        rw [← dfs_disc_iff (mainAdj g) g.n (mainAdj_bound g hwf) hr v]
        exact hev
      unfold recordOf at hx
      rw [List.mem_append] at hx
      rcases hx with hx | hx
      · by_cases hind : isInd g v = true
        · rw [if_pos hind] at hx
          have hxv : x = v := by simpa using hx
          subst hxv
          exact Or.inl ⟨hind, hv⟩
        · rw [if_neg hind] at hx
          simp at hx
      · by_cases hfam : isFam g v = true
        · rw [if_pos hfam] at hx
          cases hsp : g.spouse v with
          | none => rw [hsp] at hx; simp at hx
          | some m =>
            rw [hsp] at hx
            have hxm : x = m := by simpa using hx
            subst hxm
            exact Or.inr ⟨v, hfam, hsp, hv⟩
        · rw [if_neg hfam] at hx
          simp at hx
  · intro hx
    rcases hx with ⟨hind, hv⟩ | ⟨F, hfam, hsp, hv⟩
    · refine ⟨Ev.disc x, ?_, ?_⟩
      · rw [dfs_disc_iff (mainAdj g) g.n (mainAdj_bound g hwf) hr x,
          dfs_reach_iff (mainAdj g) g.n (mainAdj_bound g hwf) hr x]
        exact hv
      · unfold recordOf
        rw [List.mem_append, if_pos hind]
        exact Or.inl (by simp)
    · refine ⟨Ev.disc F, ?_, ?_⟩
      · rw [dfs_disc_iff (mainAdj g) g.n (mainAdj_bound g hwf) hr F,
          dfs_reach_iff (mainAdj g) g.n (mainAdj_bound g hwf) hr F]
        exact hv
      · unfold recordOf
        rw [List.mem_append, if_pos hfam, hsp]
        exact Or.inr (by simp)

theorem rootsPerVertex_mem (g : TheGraph) (r x : Nat) :
    r ∈ rootsPerVertex g x ↔ (r ∈ roots0 g ∧ x ∈ recordsOfDfs g r) := by
  unfold rootsPerVertex
  rw [List.mem_flatMap]
  constructor
  · rintro ⟨r0, hr0, hmem⟩
    obtain ⟨y, hy, hyr⟩ := List.mem_map.mp hmem
    subst hyr
    obtain ⟨hy1, hy2⟩ := List.mem_filter.mp hy
    refine ⟨hr0, ?_⟩
    have hxy : y = x := by simpa using hy2
    rw [← hxy]
    exact hy1
  · rintro ⟨hr0, hx⟩
    refine ⟨r, hr0, ?_⟩
    apply List.mem_map.mpr
    refine ⟨x, ?_, rfl⟩
    rw [List.mem_filter]
    exact ⟨hx, by simp⟩

/-- C3 (amended): a root `r` appears in the Branch Indexer membership
list of a vertex `x` exactly when `r` is a zero-in-degree root and
either `x` is an Individual reachable from `r` along main edges, or `x`
is the recorded spouse of a Family reachable from `r` along main edges.
In particular spouses are recorded without being main-edge reachable,
and Family vertices themselves are never recorded. -/
theorem c3_membership (g : TheGraph) (hwf : WF g) (r x : Nat) :
    r ∈ rootsPerVertex g x ↔
      (r ∈ roots0 g ∧
        ((isInd g x = true ∧ Reach (mainAdj g) r x) ∨
         (∃ F, isFam g F = true ∧ g.spouse F = some x ∧
           Reach (mainAdj g) r F))) := by
  rw [rootsPerVertex_mem]
  constructor
  · rintro ⟨hr0, hx⟩
    refine ⟨hr0, ?_⟩
    rw [← records_mem g hwf ((roots0_mem g r).mp hr0).1 x]
    exact hx
  · rintro ⟨hr0, hx⟩
    refine ⟨hr0, ?_⟩
    rw [records_mem g hwf ((roots0_mem g r).mp hr0).1 x]
    exact hx

/-- C3 counterexample: root `0` is in the membership list of vertex `2`,
but `2` is not reachable from `0` along main edges, contradicting the
claimed "if and only if reachable by a path of main edges". -/
theorem c3_counterexample :
    0 ∈ rootsPerVertex gC3 2 ∧ ¬ Reach (mainAdj gC3) 0 2 := by
  constructor
  · decide
  · intro h
    have h2 := (dfs_reach_iff (mainAdj gC3) gC3.n
      (mainAdj_bound gC3 (by decide)) (r := 0) (by decide) 2).mpr h
    revert h2
    decide

/-- C3 (amended) witness at `gC3`: vertex `2` is the recorded spouse of
family `1`, which is main-reachable from root `0`. -/
theorem c3_witness : 0 ∈ rootsPerVertex gC3 2 := by
  rw [c3_membership gC3 (by decide) 0 2]
  refine ⟨by decide, Or.inr ⟨1, by decide, by decide, ?_⟩⟩
  have h1 : (1 : Nat) ∈ mainAdj gC3 0 := by decide
  exact Relation.ReflTransGen.single h1

theorem insDesc_perm (x : Nat × Nat) :
    ∀ l : List (Nat × Nat), (insDesc x l).Perm (x :: l) := by
  intro l
  induction l with
  | nil => exact List.Perm.refl _
  | cons y l ih =>
    by_cases hxy : x.2 ≤ y.2
    · rw [insDesc, if_pos hxy]
      exact (List.Perm.cons y ih).trans (List.Perm.swap x y l)
    · rw [insDesc, if_neg hxy]

theorem sortDesc_perm (l : List (Nat × Nat)) : (sortDesc l).Perm l := by
  have hgen : ∀ (l acc : List (Nat × Nat)),
      (l.foldl (fun acc x => insDesc x acc) acc).Perm (acc ++ l) := by
    intro l
    induction l with
    | nil => intro acc; simp
    | cons x l ih =>
      intro acc
      rw [List.foldl_cons]
      exact (ih (insDesc x acc)).trans
        (((insDesc_perm x acc).append_right l).trans List.perm_middle.symm)
  simpa [sortDesc] using hgen l []

theorem insDesc_sorted {x : Nat × Nat} :
    ∀ {l : List (Nat × Nat)}, l.Pairwise (fun a b => b.2 ≤ a.2) →
      (insDesc x l).Pairwise (fun a b => b.2 ≤ a.2) := by
  intro l
  induction l with
  | nil => intro _; simp [insDesc]
  | cons y l ih =>
    intro hs
    obtain ⟨hy, hl⟩ := List.pairwise_cons.mp hs
    by_cases hxy : x.2 ≤ y.2
    · rw [insDesc, if_pos hxy]
      rw [List.pairwise_cons]
      refine ⟨?_, ih hl⟩
      intro a ha
      have := (insDesc_perm x l).mem_iff.mp ha
      rcases List.mem_cons.mp this with rfl | ha2
      · exact hxy
      · exact hy a ha2
    · rw [insDesc, if_neg hxy]
      rw [List.pairwise_cons]
      refine ⟨?_, hs⟩
      intro a ha
      rcases List.mem_cons.mp ha with rfl | ha2
      · omega
      · have := hy a ha2
        omega

theorem sortDesc_sorted (l : List (Nat × Nat)) :
    (sortDesc l).Pairwise (fun a b => b.2 ≤ a.2) := by
  have hgen : ∀ (l acc : List (Nat × Nat)),
      acc.Pairwise (fun a b => b.2 ≤ a.2) →
      (l.foldl (fun acc x => insDesc x acc) acc).Pairwise (fun a b => b.2 ≤ a.2) := by
    intro l
    induction l with
    | nil => intro acc h; simpa using h
    | cons x l ih =>
      intro acc h
      rw [List.foldl_cons]
      exact ih (insDesc x acc) (insDesc_sorted h)
  exact hgen l [] (by simp)

theorem filter_snd_nil_of_lt {c : Nat} :
    ∀ {l : List (Nat × Nat)}, l.Pairwise (fun a b => b.2 ≤ a.2) →
      (∀ p ∈ l, p.2 < c) → l.filter (fun p => p.2 == c) = [] := by
  intro l hs hlt
  rw [List.filter_eq_nil_iff]
  intro p hp
  have := hlt p hp
  simp
  omega

theorem insDesc_filter {x : Nat × Nat} {c : Nat} :
    ∀ {l : List (Nat × Nat)}, l.Pairwise (fun a b => b.2 ≤ a.2) →
      (insDesc x l).filter (fun p => p.2 == c)
        = l.filter (fun p => p.2 == c) ++ (if x.2 = c then [x] else []) := by
  intro l
  induction l with
  | nil =>
    intro _
    show List.filter (fun p => p.2 == c) [x] = [] ++ (if x.2 = c then [x] else [])
    rw [List.filter_cons]
    by_cases hx : x.2 = c
    · rw [if_pos (by simp [hx]), if_pos hx]
      rfl
    · rw [if_neg (by simp [hx]), if_neg hx]
      rfl
  | cons y l ih =>
    intro hs
    obtain ⟨hy, hl⟩ := List.pairwise_cons.mp hs
    by_cases hxy : x.2 ≤ y.2
    · rw [insDesc, if_pos hxy]
      rw [List.filter_cons, List.filter_cons]
      by_cases hyc : y.2 = c
      · rw [if_pos (by simp [hyc]), if_pos (by simp [hyc])]
        rw [ih hl]
        rfl
      · rw [if_neg (by simp [hyc]), if_neg (by simp [hyc])]
        exact ih hl
    · rw [insDesc, if_neg hxy]
      by_cases hxc : x.2 = c
      · have hnil : (y :: l).filter (fun p => p.2 == c) = [] := by
          apply filter_snd_nil_of_lt hs
          intro p hp
          rcases List.mem_cons.mp hp with rfl | hp2
          · omega
          · have := hy p hp2
            omega
        rw [List.filter_cons, if_pos (by simp [hxc]), hnil, if_pos hxc]
        rfl
      · rw [List.filter_cons, if_neg (by simp [hxc]), if_neg hxc]
        simp

theorem sortDesc_stable (l : List (Nat × Nat)) (c : Nat) :
    (sortDesc l).filter (fun p => p.2 == c) = l.filter (fun p => p.2 == c) := by
  have hgen : ∀ (l acc : List (Nat × Nat)),
      acc.Pairwise (fun a b => b.2 ≤ a.2) →
      (l.foldl (fun acc x => insDesc x acc) acc).filter (fun p => p.2 == c)
        = acc.filter (fun p => p.2 == c) ++ l.filter (fun p => p.2 == c) := by
    intro l
    induction l with
    | nil => intro acc _; simp
    | cons x l ih =>
      intro acc hacc
      rw [List.foldl_cons, ih (insDesc x acc) (insDesc_sorted hacc)]
      rw [insDesc_filter hacc, List.filter_cons]
      by_cases hxc : x.2 = c
      · rw [if_pos hxc, if_pos (by simp [hxc])]
        simp
      · rw [if_neg hxc, if_neg (by simp [hxc])]
        simp
  simpa using hgen l [] (by simp)

theorem keptPairs_mem (g : TheGraph) (p : Nat × Nat) :
    p ∈ keptPairs g ↔
      (p.1 ∈ roots0 g ∧ p.2 = branchCount g p.1 ∧ 1 < branchCount g p.1) := by
  unfold keptPairs
  rw [List.mem_filterMap]
  constructor
  · rintro ⟨r, hr, hp⟩
    by_cases hc : 1 < branchCount g r
    · rw [if_pos hc] at hp
      have hp2 : (r, branchCount g r) = p := by injection hp
      rw [← hp2]
      exact ⟨hr, rfl, hc⟩
    · rw [if_neg hc] at hp
      simp at hp
  · rintro ⟨h1, h2, h3⟩
    refine ⟨p.1, h1, ?_⟩
    rw [if_pos h3]
    rw [← h2]

theorem keptPairs_keys_nodup (g : TheGraph) :
    ((keptPairs g).map Prod.fst).Nodup := by
  have hroots : (roots0 g).Nodup := (List.nodup_range g.n).filter _
  have hsub : ∀ l : List Nat,
      ((l.filterMap (fun r =>
        if 1 < branchCount g r then some (r, branchCount g r) else none)).map
          Prod.fst).Sublist l := by
    intro l
    induction l with
    | nil => simp
    | cons r l ih =>
      rw [List.filterMap_cons]
      by_cases hc : 1 < branchCount g r
      · rw [if_pos hc]
        exact List.Sublist.cons₂ r ih
      · rw [if_neg hc]
        exact List.Sublist.cons r ih
  exact List.Nodup.sublist (hsub (roots0 g)) hroots

theorem rootsList_nodup (g : TheGraph) : (rootsList g).Nodup := by
  have hperm : ((sortDesc (keptPairs g)).map Prod.fst).Perm
      ((keptPairs g).map Prod.fst) := (sortDesc_perm (keptPairs g)).map Prod.fst
  exact (List.Perm.nodup_iff hperm).mpr (keptPairs_keys_nodup g)

theorem labelsFrom_lookup :
    ∀ (l : List (Nat × Nat)) (k i : Nat) (p : Nat × Nat),
      (l.map Prod.fst).Nodup → l[i]? = some p →
      (labelsFrom k l).lookup p.1 = some (toString (k + i + 1)) := by
  intro l
  induction l with
  | nil => intro k i p _ hp; simp at hp
  | cons q l ih =>
    intro k i p hnd hp
    have hnd3 : (q.1 :: l.map Prod.fst).Nodup := by simpa using hnd
    obtain ⟨hq1, hndl⟩ := List.nodup_cons.mp hnd3
    cases i with
    | zero =>
      have hpq : q = p := by simpa using hp
      subst hpq
      simp [labelsFrom, List.lookup]
    | succ i =>
      have hp2 : l[i]? = some p := by simpa using hp
      have hne : (p.1 == q.1) = false := by
        rw [beq_eq_false_iff_ne]
        intro he
        apply hq1
        rw [← he]
        exact List.mem_map.mpr ⟨p, List.getElem?_mem hp2, rfl⟩
      have hrec := ih (k + 1) i p hndl hp2
      have harith : (k + 1) + i + 1 = k + (i + 1) + 1 := by omega
      rw [harith] at hrec
      simp only [labelsFrom, List.lookup, hne]
      exact hrec

theorem sortDesc_mem (l : List (Nat × Nat)) (p : Nat × Nat) :
    p ∈ sortDesc l ↔ p ∈ l :=
  (sortDesc_perm l).mem_iff

theorem mem_rootsList_iff (g : TheGraph) (r : Nat) :
    r ∈ rootsList g ↔ (r < g.n ∧ inDeg g r = 0 ∧ 1 < branchCount g r) := by
  unfold rootsList
  rw [List.mem_map]
  constructor
  · rintro ⟨p, hp, rfl⟩
    rw [sortDesc_mem, keptPairs_mem] at hp
    obtain ⟨h1, _, h3⟩ := hp
    obtain ⟨h4, h5⟩ := (roots0_mem g p.1).mp h1
    exact ⟨h4, h5, h3⟩
  · rintro ⟨h1, h2, h3⟩
    refine ⟨(r, branchCount g r), ?_, rfl⟩
    rw [sortDesc_mem, keptPairs_mem]
    exact ⟨(roots0_mem g r).mpr ⟨h1, h2⟩, rfl, h3⟩

theorem rootsList_label (g : TheGraph) :
    ∀ i r, (rootsList g)[i]? = some r → numLabel g r = some (toString (i + 1)) := by
  intro i r hir
  unfold rootsList at hir
  rw [List.getElem?_map] at hir
  cases hp : (sortDesc (keptPairs g))[i]? with
  | none => rw [hp] at hir; simp at hir
  | some p =>
    rw [hp] at hir
    have hrp : p.1 = r := by simpa using hir
    have hnd : ((sortDesc (keptPairs g)).map Prod.fst).Nodup := by
      have hperm : ((sortDesc (keptPairs g)).map Prod.fst).Perm
          ((keptPairs g).map Prod.fst) := (sortDesc_perm (keptPairs g)).map Prod.fst
      exact (List.Perm.nodup_iff hperm).mpr (keptPairs_keys_nodup g)
    have hlk := labelsFrom_lookup (sortDesc (keptPairs g)) 0 i p hnd hp
    unfold numLabel numAssoc
    rw [← hrp]
    simpa using hlk

/-- C4: the `__main__` indexing and sorting loop keeps exactly the
zero-in-degree roots whose member count exceeds 1; the kept roots are
arranged in non-increasing member count with entries of equal count kept
in candidate order (the deterministic Python stable sort), and the i-th
root of the arrangement is labeled with the decimal numeral of i+1. -/
theorem c4_kept_roots_sorted_labels (g : TheGraph) :
    (∀ r, r ∈ rootsList g ↔ (r < g.n ∧ inDeg g r = 0 ∧ 1 < branchCount g r)) ∧
    (rootsList g).Pairwise (fun a b => branchCount g b ≤ branchCount g a) ∧
    (∀ c, (sortDesc (keptPairs g)).filter (fun p => p.2 == c)
        = (keptPairs g).filter (fun p => p.2 == c)) ∧
    (∀ i r, (rootsList g)[i]? = some r → numLabel g r = some (toString (i + 1))) := by
  refine ⟨mem_rootsList_iff g, ?_, sortDesc_stable (keptPairs g), rootsList_label g⟩
  unfold rootsList
  rw [List.pairwise_map]
  have hs := sortDesc_sorted (keptPairs g)
  apply List.Pairwise.imp_of_mem ?_ hs
  intro a b ha hb hab
  have ha2 := ((sortDesc_mem _ a).mp ha)
  have hb2 := ((sortDesc_mem _ b).mp hb)
  rw [keptPairs_mem] at ha2 hb2
  rw [← ha2.2.1, ← hb2.2.1]
  exact hab

/-- C4 witness: on `gC4` the bigger branch is kept as label "1" and the
smaller as label "2". -/
theorem c4_witness :
    (0 ∈ rootsList gC4 ↔ (0 < gC4.n ∧ inDeg gC4 0 = 0 ∧ 1 < branchCount gC4 0)) ∧
    numLabel gC4 4 = some "2" :=
  ⟨(c4_kept_roots_sorted_labels gC4).1 0,
   (c4_kept_roots_sorted_labels gC4).2.2.2 1 4 (by decide)⟩

theorem edge_step_allAdj {g : TheGraph} {a b : Nat}
    (h : ∃ e ∈ g.edges, e.src = a ∧ e.tgt = b) : b ∈ allAdj g a := by
  obtain ⟨e, he, hsrc, htgt⟩ := h
  unfold allAdj
  rw [← htgt]
  apply List.mem_map.mpr
  refine ⟨e, ?_, rfl⟩
  rw [List.mem_filter]
  exact ⟨he, by simp [hsrc]⟩

/-- C7: when the selector is started at an individual `X` whose parent is
`Y` (edges `Y → F → X` for the parent family `F` of `X`), no vertex is at the
same time a descendant of `X`, a non-descendant of `Y`, outside the
ancestor closure, not a spouse of a selected family, and selected.  The
qualifying set is empty: through the child edge `F → X` every descendant
of `X` is automatically a descendant of `Y`, so the exclusion holds
vacuously. -/
theorem c7_selector_excludes (g : TheGraph) (hwf : WF g) (X Y F : Nat)
    (hYF : ∃ e ∈ g.edges, e.src = Y ∧ e.tgt = F)
    (hFX : ∃ e ∈ g.edges, e.src = F ∧ e.tgt = X) :
    (List.range g.n).filter (fun w =>
      reachB g X w && !reachB g Y w &&
      !(decide (w ∈ ancestors g X)) && !(spouseOfSelB g X w) &&
      decide (w ∈ selectedSet g X)) = [] := by
  have hXlt : X < g.n := by
    obtain ⟨e, he, _, htgt⟩ := hFX
    rw [← htgt]
    exact (hwf e he).2
  have hYlt : Y < g.n := by
    obtain ⟨e, he, hsrc, _⟩ := hYF
    rw [← hsrc]
    exact (hwf e he).1
  rw [List.filter_eq_nil_iff]
  intro w hw hpred
  simp only [Bool.and_eq_true, decide_eq_true_eq, Bool.not_eq_true,
    decide_eq_false_iff_not] at hpred
  obtain ⟨⟨⟨⟨hX, hnY⟩, _⟩, _⟩, _⟩ := hpred
  have hreachX : Reach (allAdj g) X w := by
    unfold reachB at hX
    rw [decide_eq_true_eq] at hX
    exact (dfs_reach_iff (allAdj g) g.n (allAdj_bound g hwf) hXlt w).mp hX
  have hreachY : Reach (allAdj g) Y w :=
    Relation.ReflTransGen.head (edge_step_allAdj hYF)
      (Relation.ReflTransGen.head (edge_step_allAdj hFX) hreachX)
  have hYw : reachB g Y w = true := by
    unfold reachB
    rw [decide_eq_true_eq]
    exact (dfs_reach_iff (allAdj g) g.n (allAdj_bound g hwf) hYlt w).mpr hreachY
  rw [hYw] at hnY
  simp at hnY

/-- C7 witness at `gC7` with `X = 2`, `Y = 0`, `F = 1`. -/
theorem c7_witness :
    (List.range gC7.n).filter (fun w =>
      reachB gC7 2 w && !reachB gC7 0 w &&
      !(decide (w ∈ ancestors gC7 2)) && !(spouseOfSelB gC7 2 w) &&
      decide (w ∈ selectedSet gC7 2)) = [] :=
  c7_selector_excludes gC7 (by decide) 2 0 1 (by decide) (by decide)

/-! ### The corner-fix never leaves a dangling continuation glyph -/
theorem setCharAt_get {l : List Char} {i : Nat} (hi : i < l.length)
    {cs : List Char} (hcs : 0 < cs.length) : (setCharAt l i cs)[i]? = cs[0]? := by
  unfold setCharAt
  have hlt : (List.take i l).length = i := by rw [List.length_take]; omega
  rw [List.getElem?_append_left (by rw [List.length_append, hlt]; omega)]
  rw [List.getElem?_append_right (le_of_eq hlt)]
  rw [hlt, Nat.sub_self]

theorem getElem?_lt {α} {l : List α} {i : Nat} {a : α} (h : l[i]? = some a) :
    i < l.length := by
  by_contra h2
  rw [List.getElem?_eq_none (by omega)] at h
  simp at h

theorem cornerFinish_spec {pos index : Nat} {lines out : List (List Char)}
    (h : cornerFinish pos index lines = some out) :
    out.length = lines.length ∧
    (∀ j, j ≠ index → out[j]? = lines[j]?) ∧
    (∀ l, out[index]? = some l → l[pos]? ≠ some '│') := by
  unfold cornerFinish at h
  cases hl : lines[index]? with
  | none => rw [hl] at h; simp at h
  | some last =>
    rw [hl, Option.some_bind] at h
    cases hc : last[pos]? with
    | none => rw [hc] at h; simp at h
    | some c =>
      rw [hc, Option.some_bind] at h
      have hpos : pos < last.length := getElem?_lt hc
      have hidx : index < lines.length := getElem?_lt hl
      by_cases h1 : c = '├'
      · rw [if_pos h1] at h
        injection h with h
        subst h
        refine ⟨by simp, fun j hj => List.getElem?_set_ne (fun he => hj he.symm), ?_⟩
        intro l hl2
        rw [List.getElem?_set_self hidx] at hl2
        have hl3 : l = setCharAt last pos ['└'] := by injection hl2.symm
        rw [hl3, setCharAt_get hpos (by decide)]
        decide
      · rw [if_neg h1] at h
        by_cases h2 : c = '│' ∨ c = '┆'
        · rw [if_pos h2] at h
          injection h with h
          subst h
          refine ⟨by simp, fun j hj => List.getElem?_set_ne (fun he => hj he.symm), ?_⟩
          intro l hl2
          rw [List.getElem?_set_self hidx] at hl2
          have hl3 : l = setCharAt last pos ['╵'] := by injection hl2.symm
          rw [hl3, setCharAt_get hpos (by decide)]
          decide
        · rw [if_neg h2] at h
          injection h with h
          subst h
          refine ⟨rfl, fun j hj => rfl, ?_⟩
          intro l hl2
          rw [hl] at hl2
          have hl3 : l = last := by injection hl2.symm
          rw [hl3, hc]
          intro he
          injection he with hcc
          exact h2 (Or.inl hcc)

theorem cornerWalk_spec {pos : Nat} :
    ∀ {index : Nat} {lines out : List (List Char)},
      cornerWalk pos index lines = some out →
      out.length = lines.length ∧
      (∀ j, index < j → out[j]? = lines[j]?) ∧
      (∀ l, out[index]? = some l → l[pos]? ≠ some '│') := by
  intro index
  induction index with
  | zero =>
    intro lines out h
    have hs := cornerFinish_spec (h : cornerFinish pos 0 lines = some out)
    exact ⟨hs.1, fun j hj => hs.2.1 j (by omega), hs.2.2⟩
  | succ index ih =>
    intro lines out h
    unfold cornerWalk at h
    cases hl : lines[index + 1]? with
    | none => rw [hl] at h; simp at h
    | some last =>
      rw [hl, Option.some_bind] at h
      cases hc : last[pos]? with
      | none => rw [hc] at h; simp at h
      | some c =>
        rw [hc, Option.some_bind] at h
        have hpos : pos < last.length := getElem?_lt hc
        have hidx : index + 1 < lines.length := getElem?_lt hl
        by_cases h1 : c = '│'
        · rw [if_pos h1] at h
          cases hp : lines[index]? with
          | none => rw [hp] at h; simp at h
          | some prev =>
            rw [hp, Option.some_bind] at h
            cases hq : prev[pos]? with
            | none => rw [hq] at h; simp at h
            | some p =>
              rw [hq, Option.some_bind] at h
              by_cases h3 : p = '├' ∨ p = '│' ∨ p = '┆'
              · rw [if_pos h3] at h
                obtain ⟨hlen, hup, _⟩ := ih h
                have hset : (lines.set (index + 1)
                    (setCharAt last pos invisSpan))[index + 1]?
                    = some (setCharAt last pos invisSpan) :=
                  List.getElem?_set_self (by omega)
                refine ⟨by simpa using hlen, ?_, ?_⟩
                · intro j hj
                  rw [hup j (by omega), List.getElem?_set_ne (by omega)]
                · intro l hl2
                  rw [hup (index + 1) (by omega), hset] at hl2
                  have hl3 : l = setCharAt last pos invisSpan := by injection hl2.symm
                  rw [hl3, setCharAt_get hpos (by decide)]
                  decide
              · rw [if_neg h3] at h
                have hs := cornerFinish_spec h
                exact ⟨hs.1, fun j hj => hs.2.1 j (by omega), hs.2.2⟩
        · rw [if_neg h1] at h
          have hs := cornerFinish_spec h
          exact ⟨hs.1, fun j hj => hs.2.1 j (by omega), hs.2.2⟩

/-- C5 (amended): after `Printer.finish_vertex` runs for an Individual,
the character at column `2 * level` (the depth column of the finished
subtree) of the last emitted line is never the plain vertical
continuation glyph `│`: the corner fix has turned it into `└` or `╵`,
hidden it behind the invisible placeholder, or found a non-connector
character there in the first place. -/
theorem c5_corner_no_bar (g : TheGraph) (v : Nat) (st out : PState)
    (hind : isInd g v = true) (h : finishVertexP g v st = some out) :
    ∀ l, out.lines.getLast? = some l → l[(st.level - 1) * 2]? ≠ some '│' := by
  unfold finishVertexP at h
  rw [if_pos hind] at h
  by_cases hemp : st.lines = []
  · rw [if_pos hemp] at h
    injection h with h
    subst h
    intro l hl
    rw [hemp] at hl
    simp at hl
  · rw [if_neg hemp] at h
    cases hw : cornerWalk ((st.level - 1) * 2) (st.lines.length - 1) st.lines with
    | none => rw [hw] at h; simp at h
    | some ls =>
      rw [hw] at h
      injection h with h
      subst h
      intro l hl
      obtain ⟨hlen, _, hat⟩ := cornerWalk_spec hw
      apply hat l
      rw [List.getLast?_eq_getElem? ls] at hl
      rw [← hl]
      congr 1
      rw [hlen]

/-- C5 counterexample: in the branch of `gC5`, right after the childless
Individual `C` finishes (the first four DFS events), the column at its
former depth on the last emitted line (`├ C`, column 2) shows the name
character `C` — neither a terminal glyph, nor a corner glyph, nor the
invisible placeholder, refuting the claimed disjunction. -/
theorem c5_counterexample :
    ((dfsVisit (mainAdj gC5) (gC5.n + 1) 0 []).1.take 4
      = [Ev.disc 0, Ev.disc 1, Ev.disc 2, Ev.fin 2]) ∧
    ((((dfsVisit (mainAdj gC5) (gC5.n + 1) 0 []).1.take 4).foldlM
        (stepPrinter gC5 (rootsPerVertex gC5) (numLabel gC5) 0)
        ⟨0, []⟩).map PState.lines
      = some ["R".toList, "├ C".toList]) ∧
    ("├ C".toList)[2]? = some 'C' ∧
    ¬ showsClosed ("├ C".toList) 2 :=
  ⟨by decide, by decide, by decide, by decide⟩

/-- C5 (amended) witness: the concrete finish step of Individual `C`. -/
theorem c5_witness : ("├ C".toList)[(stC5.level - 1) * 2]? ≠ some '│' :=
  c5_corner_no_bar gC5 2 stC5 ⟨1, ["R".toList, "├ C".toList]⟩
    (by decide) (by decide) ("├ C".toList) (by decide)

/-! ### Cross-reference annotations (`Printer._format_name`) -/
theorem lexLe_total : ∀ a b : List Char, lexLe a b = true ∨ lexLe b a = true := by
  intro a
  induction a with
  | nil => intro b; exact Or.inl rfl
  | cons x as ih =>
    intro b
    cases b with
    | nil => exact Or.inr rfl
    | cons y bs =>
      by_cases h1 : x.toNat < y.toNat
      · left; rw [lexLe, if_pos h1]
      · by_cases h2 : y.toNat < x.toNat
        · right; rw [lexLe, if_pos h2]
        · rcases ih bs with h | h
          · left; rw [lexLe, if_neg h1, if_neg h2]; exact h
          · right; rw [lexLe, if_neg h2, if_neg h1]; exact h

theorem lexLe_trans :
    ∀ a b c : List Char, lexLe a b = true → lexLe b c = true → lexLe a c = true := by
  intro a
  induction a with
  | nil => intro b c _ _; rfl
  | cons x as ih =>
    intro b c hab hbc
    cases b with
    | nil => rw [lexLe] at hab; simp at hab
    | cons y bs =>
      cases c with
      | nil => rw [lexLe] at hbc; simp at hbc
      | cons z cs =>
        rw [lexLe] at hab hbc ⊢
        by_cases hxy : x.toNat < y.toNat
        · by_cases hyz : y.toNat < z.toNat
          · rw [if_pos (by omega : x.toNat < z.toNat)]
          · by_cases hzy : z.toNat < y.toNat
            · rw [if_neg hyz, if_pos hzy] at hbc
              simp at hbc
            · rw [if_pos (by omega : x.toNat < z.toNat)]
        · by_cases hyx : y.toNat < x.toNat
          · rw [if_pos hyx] at hab
            rw [if_neg hxy] at hab
            simp at hab
          · by_cases hyz : y.toNat < z.toNat
            · rw [if_pos (by omega : x.toNat < z.toNat)]
            · by_cases hzy : z.toNat < y.toNat
              · rw [if_neg hyz, if_pos hzy] at hbc
                simp at hbc
              · rw [if_neg (by omega : ¬ x.toNat < z.toNat),
                  if_neg (by omega : ¬ z.toNat < x.toNat)]
                rw [if_neg hxy, if_neg hyx] at hab
                rw [if_neg hyz, if_neg hzy] at hbc
                exact ih bs cs hab hbc

theorem insStr_mem (x : String) :
    ∀ (l : List String) (a : String), a ∈ insStr x l ↔ (a = x ∨ a ∈ l) := by
  intro l
  induction l with
  | nil => intro a; simp [insStr]
  | cons y l ih =>
    intro a
    by_cases hxy : strLe x y = true
    · rw [insStr, if_pos hxy]
      simp [List.mem_cons]
    · rw [insStr, if_neg hxy]
      rw [List.mem_cons, List.mem_cons, ih a]
      tauto

theorem insStr_sorted (x : String) :
    ∀ {l : List String}, l.Pairwise (fun a b => strLe a b = true) →
      (insStr x l).Pairwise (fun a b => strLe a b = true) := by
  intro l
  induction l with
  | nil => intro _; simp [insStr]
  | cons y l ih =>
    intro hs
    obtain ⟨hy, hl⟩ := List.pairwise_cons.mp hs
    by_cases hxy : strLe x y = true
    · rw [insStr, if_pos hxy]
      rw [List.pairwise_cons]
      refine ⟨?_, hs⟩
      intro b hb
      rcases List.mem_cons.mp hb with rfl | hb2
      · exact hxy
      · exact lexLe_trans _ _ _ hxy (hy b hb2)
    · rw [insStr, if_neg hxy]
      rw [List.pairwise_cons]
      refine ⟨?_, ih hl⟩
      intro b hb
      rcases (insStr_mem x l b).mp hb with rfl | hb2
      · rcases lexLe_total b.toList y.toList with h | h
        · exact absurd h hxy
        · exact h
      · exact hy b hb2

theorem sortStrings_sorted (l : List String) :
    (sortStrings l).Pairwise (fun a b => strLe a b = true) := by
  induction l with
  | nil => simp [sortStrings]
  | cons x l ih => exact insStr_sorted x ih

theorem sortStrings_mem (l : List String) (a : String) :
    a ∈ sortStrings l ↔ a ∈ l := by
  induction l with
  | nil => simp [sortStrings]
  | cons x l ih =>
    show a ∈ insStr x (sortStrings l) ↔ _
    rw [insStr_mem, ih, List.mem_cons]

theorem diagramsOf_mem (rpv : Nat → List Nat) (num : Nat → Option String)
    (root v : Nat) (lab : String) :
    lab ∈ diagramsOf rpv num root v ↔
      ∃ r ∈ rpv v, r ≠ root ∧ num r = some lab := by
  unfold diagramsOf
  rw [sortStrings_mem, List.mem_filterMap]
  constructor
  · rintro ⟨r, hr, hf⟩
    by_cases hroot : r = root
    · rw [if_pos hroot] at hf
      simp at hf
    · rw [if_neg hroot] at hf
      exact ⟨r, hr, hroot, hf⟩
  · rintro ⟨r, hr, hroot, hnum⟩
    refine ⟨r, hr, ?_⟩
    rw [if_neg hroot]
    exact hnum

/-- C8 (amended): the cross-reference annotation lists exactly the
labels of the other kept branches the vertex belongs to, sorted in
Python string order — ascending lexicographically by code point — and
comma-joined; for single-digit labels such as "2" and "5" this
coincides with ascending numeric order, and the "2, 5" scenario holds. -/
theorem c8_crossref_lex_sorted :
    (∀ (g : TheGraph) (rpv : Nat → List Nat) (num : Nat → Option String)
      (root v : Nat),
      (diagramsOf rpv num root v).Pairwise (fun a b => strLe a b = true) ∧
      (∀ lab, lab ∈ diagramsOf rpv num root v ↔
        ∃ r ∈ rpv v, r ≠ root ∧ num r = some lab) ∧
      formatNameP g rpv num root v =
        (if diagramsOf rpv num root v = [] then formatName g v
         else formatName g v ++ " → <span class=diagrams>"
           ++ String.intercalate ", " (diagramsOf rpv num root v) ++ "</span>")) ∧
    formatNameP gC3 rpv25 num25 3 0 = "NN. → <span class=diagrams>2, 5</span>" := by
  constructor
  · intro g rpv num root v
    refine ⟨sortStrings_sorted _, diagramsOf_mem rpv num root v, ?_⟩
    unfold formatNameP
    by_cases hds : diagramsOf rpv num root v = []
    · rw [if_neg (by simp [hds]), if_pos hds]
    · rw [if_pos hds, if_neg hds]
  · decide

/-- C8 counterexample: for an individual in kept branches labelled "10"
and "2", Python string sorting puts "10" before "2", so the annotation
reads "10, 2" although 2 < 10 — not ascending numeric order as claimed. -/
theorem c8_counterexample :
    diagramsOf rpvC8 numC8 5 0 = ["10", "2"] ∧
    formatNameP gC3 rpvC8 numC8 5 0
      = "NN. → <span class=diagrams>10, 2</span>" ∧
    labelVal "2" < labelVal "10" :=
  ⟨by decide, by decide, by decide⟩

/-! ### Family vertices as branch roots -/

/-- C10: the indexing loop never checks the vertex kind, so a Family
vertex with no incoming edges is a branch-root candidate exactly like an
Individual: if its main-edge traversal records more than one member it
is kept, labelled with its 1-based position, and the HTML loop emits a
diagram for it whose heading uses the (empty) surname field of the
Family vertex. -/
theorem c10_family_root (g : TheGraph) (v : Nat) (hfam : isFam g v = true)
    (hv : v < g.n) (hdeg : inDeg g v = 0) (hcnt : 1 < branchCount g v)
    (hsurn : g.surn v = "") :
    v ∈ rootsList g ∧
    (∃ i, (rootsList g)[i]? = some v ∧ numLabel g v = some (toString (i + 1))) ∧
    ((numLabel g v).getD "", "", printerLines g v) ∈ diagramEntries g := by
  have hmem : v ∈ rootsList g := (mem_rootsList_iff g v).mpr ⟨hv, hdeg, hcnt⟩
  refine ⟨hmem, ?_, ?_⟩
  · obtain ⟨i, hi⟩ := List.getElem?_of_mem hmem
    exact ⟨i, by rw [hi], rootsList_label g i v (by rw [hi])⟩
  · unfold diagramEntries
    rw [← hsurn]
    exact List.mem_map.mpr ⟨v, hmem, rfl⟩

/-- C10 witness: the parentless family of `gC10` is kept as a branch
root with label "1" and an empty heading surname. -/
theorem c10_witness :
    0 ∈ rootsList gC10 ∧
    (∃ i, (rootsList gC10)[i]? = some 0 ∧
      numLabel gC10 0 = some (toString (i + 1))) ∧
    ((numLabel gC10 0).getD "", "", printerLines gC10 0) ∈ diagramEntries gC10 :=
  c10_family_root gC10 0 (by decide) (by decide) (by decide) (by decide) (by decide)

end Ged2Html
